import Mathlib

/-!
# Random indexing of n-dimensional arrays (github.com/fresan/nri)

A shallow embedding of `randomindex.h` / `randomindex.cc`.

* `unsigned` is a natural number below `2^32`; every `unsigned` operation of the
  source is wrapped explicitly (`uadd`, `usub`, `umul`).
* `RIData` (`signed short`) is an integer in `[-32768, 32767]`; a conversion of an
  `int` to `RIData` is `toRIData`.
* `RIIndex` (`unsigned short`) is a natural number below `2^16` (`toRIIndex`).
* C arrays that the source only ever indexes below its own loop bound
  (`ind`, `datarange`, `numrind`, `riunroll_`, `ritables_`) are functions on `Nat`.
* Heap blocks whose size matters (`table_`, the caller's data buffer) carry their
  size in elements; an access outside the block is the fault `outOfBounds`.
* A failed `assert` is the fault `assertion`; a division by a zero unrolling
  factor is the fault `divByZero`.
* Every `for` loop of the source is a function that is recursive in the number of
  iterations left; the one `while(true)` loop, in `rows(n)`, takes the number of
  draws it may make (`fuel`) and ends with the fault `noFuel` when they are used up.
* The generator `mtrand_` is a stream: `rng p` is the value its `p`-th call
  returns; the allocator is taken to return the block asked for, its fresh
  cells holding the values `heap`.
* The `double` accumulators of `decode` and `cosa` hold sums of integers; they are
  modelled by exact integers, and the final quotient by the exact value
  (`fdiv`, `CosaVal`).
* `datasat_` (`unsigned long`, 64 bit) is incremented by one per clamped term and is
  modelled without wrap-around.
-/

namespace NRI

/-- The modulus of `unsigned`. -/
def U32 : Nat := 4294967296

/-- `unsigned` addition. -/
def uadd (a b : Nat) : Nat := (a + b) % U32

/-- `unsigned` multiplication. -/
def umul (a b : Nat) : Nat := (a * b) % U32

/-- `unsigned` subtraction. -/
def usub (a b : Nat) : Nat := (a + U32 - b % U32) % U32

/-- Value of `__MIN(RIData)`. -/
def MIN_RIData : Int := -32768

/-- Value of `__MAX(RIData)`. -/
def MAX_RIData : Int := 32767

/-- Value of `__MAX(RIIndex)`. -/
def MAX_RIIndex : Nat := 65535

/-- The enumerator `RandomIndex::Average`, `__MAX(unsigned)`. -/
def Average : Nat := 4294967295

/-- Conversion of an `int` to `RIData` (two's complement, 16 bit). -/
def toRIData (v : Int) : Int := (v + 32768) % 65536 - 32768

/-- Conversion of an `unsigned` to `RIIndex` (16 bit). -/
def toRIIndex (v : Nat) : Nat := v % 65536

/-- Ways in which a call stops without returning. -/
inductive Fault where
  | assertion
  | outOfBounds
  | divByZero
  | noFuel
  deriving DecidableEq, Repr

/-- One random index table (`RandomIndex::RITable`).  `cap_` is the number of
`RIIndex` elements of the heap block `table_` points to (0 for `NULL`). -/
structure RITable where
  datarange_ : Nat
  rows_ : Nat
  cols_ : Nat
  cap_ : Nat
  table_ : Nat → Nat

namespace RITable

/-- Constructor `RITable::RITable(datarange, cols)`. -/
def new (datarange cols : Nat) : Except Fault RITable :=
  if ¬ datarange ≤ MAX_RIIndex then .error .assertion
  else if ¬ (cols % 2 = 0) then .error .assertion
  else if ¬ cols < datarange then .error .assertion
  else .ok { datarange_ := datarange, rows_ := 0, cols_ := cols, cap_ := 0, table_ := fun _ => 0 }

/-- Accessor `rows()`. -/
def rows (t : RITable) : Nat := t.rows_

/-- Accessor `cols()`. -/
def cols (t : RITable) : Nat := t.cols_

/-- Accessor `numpositive()`, `cols_>>1`. -/
def numpositive (t : RITable) : Nat := t.cols_ / 2

/-- Accessor `datarange()`. -/
def datarange (t : RITable) : Nat := t.datarange_

/-- Position `row*cols_ + col` of a cell inside `table_`. -/
def pos (t : RITable) (row col : Nat) : Nat := uadd (umul row t.cols_) col

/-- The read use of `item(row, col)`. -/
def item (t : RITable) (row col : Nat) : Except Fault Nat :=
  if ¬ row < t.rows_ then .error .assertion
  else if ¬ col < t.cols_ then .error .assertion
  else if ¬ t.pos row col < t.cap_ then .error .outOfBounds
  else if ¬ t.table_ (t.pos row col) < t.datarange_ then .error .assertion
  else .ok (t.table_ (t.pos row col))

end RITable

/-- The engine (`class RandomIndex`). -/
structure RandomIndex where
  dims_ : Nat
  datanumel_ : Nat
  datasat_ : Nat
  distnumel_ : Nat
  riunroll_ : Nat → Nat
  ritables_ : Nat → RITable

/-- A caller-owned block of `numel` elements of `RIData`. -/
structure RIBuf where
  numel : Nat
  cell : Nat → Int

namespace RIBuf

/-- A block of `n` zeros. -/
def zero (n : Nat) : RIBuf := { numel := n, cell := fun _ => 0 }

/-- Store `v` at `i`. -/
def write (b : RIBuf) (i : Nat) (v : Int) : RIBuf :=
  { numel := b.numel, cell := fun k => if k = i then v else b.cell k }

end RIBuf

namespace RandomIndex

/-- The inner loop `for(j=i+1; j<dims_; j++) riunroll_[i] *= numrind[j];`
with `k` iterations left. -/
def unrollLoop (numrind : Nat → Nat) : Nat → Nat → Nat → Nat
  | 0, _, acc => acc
  | k + 1, j, acc => unrollLoop numrind k (j + 1) (umul acc (numrind j))

/-- The constructor loop `for(i=0; i<dims; i++)` with `k` iterations left. -/
def newLoop (dims : Nat) (datarange numrind : Nat → Nat) :
    Nat → Nat → RandomIndex → Except Fault RandomIndex
  | 0, _, e => .ok e
  | k + 1, i, e =>
    match RITable.new (datarange i) (numrind i) with
    | .error f => .error f
    | .ok t =>
      newLoop dims datarange numrind k (i + 1)
        { e with
          ritables_ := Function.update e.ritables_ i t
          datanumel_ := umul e.datanumel_ (datarange i)
          distnumel_ := umul e.distnumel_ (numrind i)
          riunroll_ := Function.update e.riunroll_ i
            (unrollLoop numrind (dims - (i + 1)) (i + 1) 1) }

/-- Table standing for a not yet assigned entry of `ritables_`. -/
def noTable : RITable :=
  { datarange_ := 0, rows_ := 0, cols_ := 0, cap_ := 0, table_ := fun _ => 0 }

/-- Constructor `RandomIndex::RandomIndex(dims, datarange, numrind)`. -/
def new (dims : Nat) (datarange numrind : Nat → Nat) : Except Fault RandomIndex :=
  if ¬ 0 < dims then .error .assertion
  else
    newLoop dims datarange numrind dims 0
      { dims_ := dims, datanumel_ := 1, datasat_ := 0, distnumel_ := 1,
        riunroll_ := fun _ => 0, ritables_ := fun _ => noTable }

/-- Accessor `range(dim)`. -/
def range (e : RandomIndex) (dim : Nat) : Except Fault Nat :=
  if ¬ dim < e.dims_ then .error .assertion else .ok (e.ritables_ dim).rows

/-- Accessor `datasize()`, with `sizeof(RIData) = 2`. -/
def datasize (e : RandomIndex) : Nat := umul e.datanumel_ 2

/-- Accessor `saturation()`. -/
def saturation (e : RandomIndex) : Nat := e.datasat_

/-- The loop `for(i=0; i<dims_; i++)` shared by `encode` and `decode`, with `k`
iterations left: it carries `temp`, `dataindex` and the `RIData` variable that
is negated (`w` in `encode`, `s` in `decode`). -/
def termLoop (e : RandomIndex) (ind : Nat → Nat) :
    Nat → Nat → Nat → Nat → Int → Except Fault (Nat × Int)
  | 0, _, _, dataindex, w => .ok (dataindex, w)
  | k + 1, i, temp, dataindex, w =>
    if e.riunroll_ i = 0 then .error .divByZero
    else
      match (e.ritables_ i).item (ind i) (temp / e.riunroll_ i) with
      | .error f => .error f
      | .ok r =>
        termLoop e ind k (i + 1)
          (usub temp (umul (temp / e.riunroll_ i) (e.riunroll_ i)))
          (uadd r (umul (e.ritables_ i).datarange dataindex))
          (if temp / e.riunroll_ i ≥ (e.ritables_ i).numpositive then toRIData (-w) else w)

/-- Flat offset and signed weight of term `j`. -/
def term (e : RandomIndex) (ind : Nat → Nat) (w0 : Int) (j : Nat) : Except Fault (Nat × Int) :=
  termLoop e ind e.dims_ 0 j 0 w0

/-- The saturating store at the end of the body of the `j` loop of `encode`. -/
def store (st : RIBuf × Nat) (dataindex : Nat) (w : Int) : Except Fault (RIBuf × Nat) :=
  if ¬ dataindex < st.1.numel then .error .outOfBounds
  else
    if MIN_RIData ≤ st.1.cell dataindex + w ∧ st.1.cell dataindex + w ≤ MAX_RIData then
      .ok (st.1.write dataindex (st.1.cell dataindex + w), st.2)
    else if st.1.cell dataindex + w < MIN_RIData then
      .ok (st.1.write dataindex MIN_RIData, st.2 + 1)
    else
      .ok (st.1.write dataindex MAX_RIData, st.2 + 1)

/-- Body of the `j` loop of `encode` on the state (buffer, `datasat_`). -/
def encodeTerm (e : RandomIndex) (ind : Nat → Nat) (weight : Int) (st : RIBuf × Nat) (j : Nat) :
    Except Fault (RIBuf × Nat) :=
  match term e ind weight j with
  | .error f => .error f
  | .ok (dataindex, w) => store st dataindex w

/-- The loop `for(j=0; j<distnumel_; j++)` of `encode` with `k` iterations left.
The state returned with a fault is the state at the moment of the fault. -/
def encodeLoop (e : RandomIndex) (ind : Nat → Nat) (weight : Int) :
    Nat → Nat → RIBuf × Nat → Option Fault × (RIBuf × Nat)
  | 0, _, st => (none, st)
  | k + 1, j, st =>
    match encodeTerm e ind weight st j with
    | .error f => (some f, st)
    | .ok st' => encodeLoop e ind weight k (j + 1) st'

/-- Method `encode(data, ind, weight)`: the fault, if any, and the buffer and
saturation counter the call leaves behind. -/
def encode (e : RandomIndex) (data : RIBuf) (ind : Nat → Nat) (weight : Int) :
    Option Fault × (RIBuf × Nat) :=
  if weight = 0 then (none, (data, e.datasat_))
  else encodeLoop e ind weight e.distnumel_ 0 (data, e.datasat_)

/-- The loop `for(j=0; j<distnumel_; j++)` of `decode` with `k` iterations left. -/
def decodeLoop (e : RandomIndex) (data : RIBuf) (ind : Nat → Nat) :
    Nat → Nat → Int → Except Fault Int
  | 0, _, weight => .ok weight
  | k + 1, j, weight =>
    match term e ind 1 j with
    | .error f => .error f
    | .ok (dataindex, s) =>
      if ¬ dataindex < data.numel then .error .outOfBounds
      else decodeLoop e data ind k (j + 1) (weight + s * data.cell dataindex)

/-- Quotient `a / b` of a `double` holding the integer `a` by the `unsigned` `b`;
`none` is the NaN that `0.0 / 0` gives. -/
def fdiv (a : Int) (b : Nat) : Option ℚ :=
  if b = 0 then none else some ((a : ℚ) / (b : ℚ))

/-- Method `decode(data, ind)`. -/
def decode (e : RandomIndex) (data : RIBuf) (ind : Nat → Nat) : Except Fault (Option ℚ) :=
  match decodeLoop e data ind e.distnumel_ 0 0 with
  | .error f => .error f
  | .ok weight => .ok (fdiv weight e.distnumel_)

end RandomIndex

namespace RITable

/-- The loop `for(k=0; k<j; k++) if(item(i,k) == rnd) k=cols_;` of `rows(n)`, with
`f` iterations left; the result is the value of `k` when the loop is left. -/
def scanLoop (t : RITable) (i rnd j : Nat) : Nat → Nat → Except Fault Nat
  | 0, _ => .error .noFuel
  | f + 1, k =>
    if ¬ k < j then .ok k
    else
      match t.item i k with
      | .error e => .error e
      | .ok v => scanLoop t i rnd j f (uadd (if v = rnd then t.cols_ else k) 1)

/-- The loop `while(true)` of `rows(n)` with `f` draws left.  `rng p` is the value
the `p`-th call of `mtrand_.randInt(upper)` returns; the result is `rnd` and the
number of calls made so far. -/
def drawLoop (t : RITable) (rng : Nat → Nat) (i j : Nat) : Nat → Nat → Except Fault (Nat × Nat)
  | 0, _ => .error .noFuel
  | f + 1, p =>
    match scanLoop t i (toRIIndex (rng p)) j (j + 2) 0 with
    | .error e => .error e
    | .ok k =>
      if k < t.cols_ then .ok (toRIIndex (rng p), p + 1)
      else drawLoop t rng i j f (p + 1)

/-- The write use of `item(row, col) = v`: the assertions of `item` are
evaluated on the old content of the cell. -/
def setItem (t : RITable) (row col v : Nat) : Except Fault RITable :=
  if ¬ row < t.rows_ then .error .assertion
  else if ¬ col < t.cols_ then .error .assertion
  else if ¬ t.pos row col < t.cap_ then .error .outOfBounds
  else if ¬ t.table_ (t.pos row col) < t.datarange_ then .error .assertion
  else .ok { t with table_ := Function.update t.table_ (t.pos row col) v }

/-- The loop `for(j=0; j<cols_; j++)` of `rows(n)` with `k` iterations left. -/
def colLoop (rng : Nat → Nat) (fuel i : Nat) : Nat → Nat → RITable × Nat → Except Fault (RITable × Nat)
  | 0, _, s => .ok s
  | k + 1, j, s =>
    match drawLoop s.1 rng i j fuel s.2 with
    | .error e => .error e
    | .ok (rnd, p) =>
      match s.1.setItem i j rnd with
      | .error e => .error e
      | .ok t => colLoop rng fuel i k (j + 1) (t, p)

/-- The loop `for(i=i0; i<rows_; i++)` of `rows(n)` with `k` iterations left. -/
def rowLoop (rng : Nat → Nat) (fuel : Nat) : Nat → Nat → RITable × Nat → Except Fault (RITable × Nat)
  | 0, _, s => .ok s
  | k + 1, i, s =>
    match colLoop rng fuel i s.1.cols_ 0 s with
    | .error e => .error e
    | .ok s1 => rowLoop rng fuel k (i + 1) s1

/-- Method `rows(n)`.  The allocator is taken to return a block of
`n*cols_` elements (the product is an `unsigned` one) that keeps the old
content and whose new cells hold `heap`; `fuel` bounds the draws made for one
cell.  The state is the table and the number of draws made so far. -/
def grow (t : RITable) (n : Nat) (heap rng : Nat → Nat) (fuel p : Nat) :
    Except Fault (RITable × Nat) :=
  if n > t.rows_ then
    rowLoop rng fuel (n - t.rows_) t.rows_
      ({ t with
          cap_ := umul n t.cols_
          table_ := fun q => if q < t.cap_ then t.table_ q else heap q
          rows_ := n }, p)
  else .ok (t, p)

end RITable

/-- The value of a quotient of `double`s `dot / sqrt(norm1*norm2)`. -/
inductive CosaVal where
  | nan
  | inf (negative : Bool)
  | quot (dot norm1 norm2 : Int)
  deriving DecidableEq, Repr

namespace RandomIndex

/-- Method `setrange(dim, range)`: the value returned, the engine and the number
of draws made so far. -/
def setrange (e : RandomIndex) (dim n : Nat) (heap rng : Nat → Nat) (fuel p : Nat) :
    Except Fault (Nat × RandomIndex × Nat) :=
  if ¬ dim < e.dims_ then .error .assertion
  else
    match (e.ritables_ dim).grow n heap rng fuel p with
    | .error f => .error f
    | .ok (t, p1) => .ok (t.rows_, { e with ritables_ := Function.update e.ritables_ dim t }, p1)

/-- The loop `for(j=i+1; j<dims_; j++)` of `cosa` with `k` iterations left. -/
def cosaUnrollLoop (e : RandomIndex) (i1 : Nat → Nat) : Nat → Nat → Nat → Nat
  | 0, _, acc => acc
  | k + 1, j, acc =>
    cosaUnrollLoop e i1 k (j + 1)
      (if i1 j = Average then umul acc (e.ritables_ j).datarange
       else umul acc (e.ritables_ j).cols)

/-- Value `unroll[i]` of `cosa`. -/
def cosaUnroll (e : RandomIndex) (i1 : Nat → Nat) (i : Nat) : Nat :=
  cosaUnrollLoop e i1 (e.dims_ - (i + 1)) (i + 1) 1

/-- The first loop `for(i=0; i<dims_; i++)` of `cosa` with `k` iterations
left; it carries `dnumel`. -/
def cosaSetup (e : RandomIndex) (i1 i2 : Nat → Nat) : Nat → Nat → Nat → Except Fault Nat
  | 0, _, dnumel => .ok dnumel
  | k + 1, i, dnumel =>
    if i1 i = Average ∨ i2 i = Average then
      if ¬ i1 i = i2 i then .error .assertion
      else cosaSetup e i1 i2 k (i + 1) (umul dnumel (e.ritables_ i).datarange)
    else cosaSetup e i1 i2 k (i + 1) (umul dnumel (e.ritables_ i).cols)

/-- The inner loop `for(i=0; i<dims_; i++)` of `cosa` with `k` iterations left;
it carries `temp`, `dind1` and `dind2`. -/
def cosaTermLoop (e : RandomIndex) (i1 i2 : Nat → Nat) :
    Nat → Nat → Nat → Nat → Nat → Except Fault (Nat × Nat)
  | 0, _, _, dind1, dind2 => .ok (dind1, dind2)
  | k + 1, i, temp, dind1, dind2 =>
    if cosaUnroll e i1 i = 0 then .error .divByZero
    else
      if ¬ i1 i = Average then
        match (e.ritables_ i).item (i1 i) (temp / cosaUnroll e i1 i) with
        | .error f => .error f
        | .ok c1 =>
          match (e.ritables_ i).item (i2 i) (temp / cosaUnroll e i1 i) with
          | .error f => .error f
          | .ok c2 =>
            cosaTermLoop e i1 i2 k (i + 1)
              (usub temp (umul (temp / cosaUnroll e i1 i) (cosaUnroll e i1 i)))
              (uadd c1 (umul (e.ritables_ i).datarange dind1))
              (uadd c2 (umul (e.ritables_ i).datarange dind2))
      else
        cosaTermLoop e i1 i2 k (i + 1)
          (usub temp (umul (temp / cosaUnroll e i1 i) (cosaUnroll e i1 i)))
          (uadd (temp / cosaUnroll e i1 i) (umul (e.ritables_ i).datarange dind1))
          (uadd (temp / cosaUnroll e i1 i) (umul (e.ritables_ i).datarange dind2))

/-- The loop `for(j=0; j<dnumel; j++)` of `cosa` with `k` iterations left; it
carries `weight`, `norm1` and `norm2`. -/
def cosaLoop (e : RandomIndex) (d1 : RIBuf) (i1 : Nat → Nat) (d2 : RIBuf) (i2 : Nat → Nat) :
    Nat → Nat → Int × Int × Int → Except Fault (Int × Int × Int)
  | 0, _, acc => .ok acc
  | k + 1, j, acc =>
    match cosaTermLoop e i1 i2 e.dims_ 0 j 0 0 with
    | .error f => .error f
    | .ok (dind1, dind2) =>
      if ¬ dind1 < d1.numel then .error .outOfBounds
      else if ¬ dind2 < d2.numel then .error .outOfBounds
      else
        cosaLoop e d1 i1 d2 i2 k (j + 1)
          (acc.1 + d1.cell dind1 * d2.cell dind2,
           acc.2.1 + d1.cell dind1 * d1.cell dind1,
           acc.2.2 + d2.cell dind2 * d2.cell dind2)

/-- The three sums `weight`, `norm1`, `norm2` that `cosa` accumulates. -/
def cosaSums (e : RandomIndex) (d1 : RIBuf) (i1 : Nat → Nat) (d2 : RIBuf) (i2 : Nat → Nat) :
    Except Fault (Int × Int × Int) :=
  match cosaSetup e i1 i2 e.dims_ 0 1 with
  | .error f => .error f
  | .ok dnumel => cosaLoop e d1 i1 d2 i2 dnumel 0 (0, 0, 0)

/-- The final expression `weight / sqrt(norm1*norm2)` of `cosa`. -/
def cosaQuot (s : Int × Int × Int) : CosaVal :=
  if s.2.1 * s.2.2 = 0 then (if s.1 = 0 then .nan else .inf (decide (s.1 < 0)))
  else .quot s.1 s.2.1 s.2.2

/-- Method `cosa(d1, i1, d2, i2)`. -/
def cosa (e : RandomIndex) (d1 : RIBuf) (i1 : Nat → Nat) (d2 : RIBuf) (i2 : Nat → Nat) :
    Except Fault CosaVal :=
  match cosaSums e d1 i1 d2 i2 with
  | .error f => .error f
  | .ok s => .ok (cosaQuot s)

end RandomIndex

/-- Exact product `f i * f (i+1) * ... * f (i+k-1)`. -/
def prodFrom (f : Nat → Nat) : Nat → Nat → Nat
  | _, 0 => 1
  | i, k + 1 => f i * prodFrom f (i + 1) k

/-- Well-formedness of a table state: the heap block holds `rows_*cols_` cells
(a product that fits `unsigned`), and every generated row satisfies the row
invariant: its values are below `datarange_` and pairwise distinct. -/
structure RITable.Valid (t : RITable) : Prop where
  fits : t.rows_ * t.cols_ < U32
  alloc : t.rows_ * t.cols_ ≤ t.cap_
  below : ∀ r, r < t.rows_ → ∀ c, c < t.cols_ → t.table_ (r * t.cols_ + c) < t.datarange_
  distinct : ∀ r, r < t.rows_ → ∀ c, c < t.cols_ → ∀ c', c' < t.cols_ →
    t.table_ (r * t.cols_ + c) = t.table_ (r * t.cols_ + c') → c = c'

/-- The engine `e` has the fields the constructor computes from
`(dims, datarange, numrind)`, and tables of the constructed shape (their rows
may have been grown since). -/
structure RandomIndex.Built (dims : Nat) (dr nr : Nat → Nat) (e : RandomIndex) : Prop where
  dims_pos : 0 < dims
  dims_eq : e.dims_ = dims
  datanumel_eq : e.datanumel_ = RandomIndex.unrollLoop dr dims 0 1
  distnumel_eq : e.distnumel_ = RandomIndex.unrollLoop nr dims 0 1
  unroll_eq : ∀ i, i < dims → e.riunroll_ i = RandomIndex.unrollLoop nr (dims - (i + 1)) (i + 1) 1
  range_le : ∀ i, i < dims → dr i ≤ MAX_RIIndex
  cols_even : ∀ i, i < dims → nr i % 2 = 0
  cols_lt : ∀ i, i < dims → nr i < dr i
  tab_range : ∀ i, i < dims → (e.ritables_ i).datarange_ = dr i
  tab_cols : ∀ i, i < dims → (e.ritables_ i).cols_ = nr i

/-- The setting in which `encode` and `decode` are called at the coordinate
`ind`: a constructed engine whose product of data ranges fits `unsigned`, with
well-formed tables that cover the coordinate. -/
structure RandomIndex.Ready (dims : Nat) (dr nr : Nat → Nat) (e : RandomIndex)
    (ind : Nat → Nat) : Prop where
  built : RandomIndex.Built dims dr nr e
  fit : prodFrom dr 0 dims < U32
  valid : ∀ i, i < dims → (e.ritables_ i).Valid
  covered : ∀ i, i < dims → ind i < (e.ritables_ i).rows_

/-- Flat offset into the data buffer that term `j` of `encode` / `decode`
addresses at the coordinate `ind` (0 when the term faults). -/
def RandomIndex.offs (e : RandomIndex) (ind : Nat → Nat) (j : Nat) : Nat :=
  match RandomIndex.term e ind 1 j with
  | .ok p => p.1
  | .error _ => 0

/-- Sign `s` that `decode` computes for term `j` at the coordinate `ind`
(0 when the term faults). -/
def RandomIndex.sgn (e : RandomIndex) (ind : Nat → Nat) (j : Nat) : Int :=
  match RandomIndex.term e ind 1 j with
  | .ok p => p.2
  | .error _ => 0

/-- What the terms `j, ..., j+k-1` of an `encode` call add to the cell `q` when no
sum leaves the range of `RIData`. -/
def RandomIndex.contrib (e : RandomIndex) (ind : Nat → Nat) (w : Int) (j k q : Nat) : Int :=
  (Finset.range k).sum
    (fun m => if RandomIndex.offs e ind (j + m) = q then w * RandomIndex.sgn e ind (j + m) else 0)

/-- Data ranges of the engine `cx`: three dimensions whose product
`65535 * 65535 * 3` exceeds `2^32`. -/
def cxDr : Nat → Nat := fun i => if i = 2 then 3 else 65535

/-- Index counts of the engine `cx`. -/
def cxNr : Nat → Nat := fun _ => 2

/-- Tables of the engine `cx`: one generated row per dimension, `{1, 21846}`,
`{0, 43690}` and `{0, 1}`. -/
def cxTab (i : Nat) : RITable :=
  { datarange_ := cxDr i, rows_ := 1, cols_ := 2, cap_ := 2,
    table_ := fun p =>
      if i = 0 then (if p = 0 then 1 else 21846)
      else if i = 1 then (if p = 0 then 0 else 43690)
      else (if p = 0 then 0 else 1) }

/-- The engine `cx` as the constructor leaves it. -/
def cxE0 : RandomIndex :=
  match RandomIndex.new 3 cxDr cxNr with
  | .ok e => e
  | .error _ =>
    { dims_ := 0, datanumel_ := 0, datasat_ := 0, distnumel_ := 0,
      riunroll_ := fun _ => 0, ritables_ := fun _ => RandomIndex.noTable }

/-- The engine `cx` with its generated tables. -/
def cxE : RandomIndex := { cxE0 with ritables_ := cxTab }

/-- Data ranges of the engine `ex` (the scenario of the specification). -/
def exDr : Nat → Nat := fun i => if i = 0 then 10000 else 1000

/-- Index counts of the engine `ex`. -/
def exNr : Nat → Nat := fun i => if i = 0 then 8 else 4

/-- Tables of the engine `ex`: 4 rows of 8 and 8 rows of 4 cells, cell `p`
holding `p`. -/
def exTab (i : Nat) : RITable :=
  { datarange_ := exDr i, rows_ := if i = 0 then 4 else 8, cols_ := exNr i, cap_ := 32,
    table_ := fun p => p }

/-- The engine `ex` as the constructor leaves it. -/
def exE0 : RandomIndex :=
  match RandomIndex.new 2 exDr exNr with
  | .ok e => e
  | .error _ =>
    { dims_ := 0, datanumel_ := 0, datasat_ := 0, distnumel_ := 0,
      riunroll_ := fun _ => 0, ritables_ := fun _ => RandomIndex.noTable }

/-- The coordinate `(3, 7)`. -/
def exInd : Nat → Nat := fun i => if i = 0 then 3 else 7

/-- The tables `t` and `t'` differ at most in the content of `table_`. -/
def RITable.SameShape (t t' : RITable) : Prop :=
  t'.datarange_ = t.datarange_ ∧ t'.rows_ = t.rows_ ∧ t'.cols_ = t.cols_ ∧ t'.cap_ = t.cap_

/-- The first `j` cells of row `i` are below `datarange_` and pairwise distinct. -/
def RITable.RowOK (t : RITable) (i j : Nat) : Prop :=
  (∀ c, c < j → t.table_ (i * t.cols_ + c) < t.datarange_) ∧
  (∀ c, c < j → ∀ c', c' < j →
    t.table_ (i * t.cols_ + c) = t.table_ (i * t.cols_ + c') → c = c')

/-- The table states that the code produces for `(datarange, cols) = (d, c)`: the
constructed table, and every table a returning call of `rows(n)` leaves behind,
for generator streams whose draws lie in `[0, d-1]`. -/
inductive RITable.Grown (d c : Nat) : RITable → Prop where
  | init (t : RITable) : RITable.new d c = .ok t → RITable.Grown d c t
  | step (t t' : RITable) (n : Nat) (heap rng : Nat → Nat) (fuel p p' : Nat) :
      RITable.Grown d c t → (∀ q, rng q ≤ d - 1) →
      t.grow n heap rng fuel p = .ok (t', p') → RITable.Grown d c t'

/-- A generator stream with repeated values: 0, 0, 1, 1, 2, 2, 0, ... -/
def gxRng : Nat → Nat := fun p => (p / 2) % 3

/-- The constructed table with `datarange = 3` and `cols = 2 = datarange - 1`. -/
def gxT0 : RITable :=
  { datarange_ := 3, rows_ := 0, cols_ := 2, cap_ := 0, table_ := fun _ => 0 }

/-- The state that `rows(2)` leaves behind on `gxT0` for the stream `gxRng`
and zeroed fresh memory. -/
def gxT1 : RITable × Nat :=
  match gxT0.grow 2 (fun _ => 0) gxRng 2 0 with
  | .ok s => s
  | .error _ => (gxT0, 0)

/-- The value `v` lies in the range of `RIData`. -/
def inRange (v : Int) : Prop := MIN_RIData ≤ v ∧ v ≤ MAX_RIData

instance (v : Int) : Decidable (inRange v) := by
  unfold inRange; infer_instance

/-- The value `clamp(v, -32768, 32767)`. -/
def clamp (v : Int) : Int := max MIN_RIData (min MAX_RIData v)

/-- The engine `ex` with its generated tables. -/
def exE : RandomIndex := { exE0 with ritables_ := exTab, datasat_ := 0 }

/-- A buffer for the engine `ex` whose cells all hold 32765. -/
def exBuf : RIBuf := { numel := exE0.datanumel_, cell := fun _ => 32765 }

/-- An engine with one dimension, `datarange = 3`, `numrind = 2`, whose table holds
the two rows of `gxT1`. -/
def gxE : RandomIndex :=
  match RandomIndex.new 1 (fun _ => 3) (fun _ => 2) with
  | .ok e => { e with ritables_ := fun _ => gxT1.1 }
  | .error _ =>
    { dims_ := 0, datanumel_ := 0, datasat_ := 0, distnumel_ := 0,
      riunroll_ := fun _ => 0, ritables_ := fun _ => RandomIndex.noTable }

/-- The result of `setrange(0, 3)` on `gxE`, continuing the stream `gxRng`
after the 5 draws made for `gxT1`, with zeroed fresh memory. -/
def gxS : Nat × RandomIndex × Nat :=
  match gxE.setrange 0 3 (fun _ => 0) gxRng 2 5 with
  | .ok s => s
  | .error _ => (0, gxE, 0)

/-- A buffer for the engine `ex` whose cells all hold 3. -/
def exBuf3 : RIBuf := { numel := exE0.datanumel_, cell := fun _ => 3 }

/-- Data ranges {2048, 32} of the driver `main`. -/
def mainDr : Nat → Nat := fun i => if i = 0 then 2048 else 32

/-- Index counts {8, 4} of the driver `main`. -/
def mainNr : Nat → Nat := fun i => if i = 0 then 8 else 4

/-- The engine `ri` of the driver `main` as the constructor leaves it. -/
def mainE : RandomIndex :=
  match RandomIndex.new 2 mainDr mainNr with
  | .ok e => e
  | .error _ =>
    { dims_ := 0, datanumel_ := 0, datasat_ := 0, distnumel_ := 0,
      riunroll_ := fun _ => 0, ritables_ := fun _ => RandomIndex.noTable }

/-- An engine with data ranges {65535, 65535} and index counts {2, 2} as the
constructor leaves it; the product of the data ranges is 4294836225. -/
def bigE : RandomIndex :=
  match RandomIndex.new 2 (fun _ => 65535) (fun _ => 2) with
  | .ok e => e
  | .error _ =>
    { dims_ := 0, datanumel_ := 0, datasat_ := 0, distnumel_ := 0,
      riunroll_ := fun _ => 0, ritables_ := fun _ => RandomIndex.noTable }

/-- Radix of dimension `i` in the enumeration of `cosa`: the data range for an
averaged dimension, the index count for an indexed one. -/
def RandomIndex.cosaRadix (e : RandomIndex) (i1 : Nat → Nat) (i : Nat) : Nat :=
  if i1 i = Average then (e.ritables_ i).datarange else (e.ritables_ i).cols

/-- Flat offset that term `j` of `encode(data, ind, weight)` addresses (0 when
the term faults). -/
def RandomIndex.target (e : RandomIndex) (ind : Nat → Nat) (weight : Int) (j : Nat) : Nat :=
  match RandomIndex.term e ind weight j with
  | .ok p => p.1
  | .error _ => 0

/-- Accessor `RITable::size()`, `sizeof(RIIndex)*cols_*rows_` with
`sizeof(RIIndex) = 2`: the product is taken in `size_t` and converted to the
`unsigned` that is returned. -/
def RITable.size (t : RITable) : Nat := (2 * t.cols_ * t.rows_) % U32

/-- The loop `for(i=0; i<dims_; i++) s += ritables_[i]->size();` of `indexsize`
with `k` iterations left. -/
def RandomIndex.indexsizeLoop (e : RandomIndex) : Nat → Nat → Nat → Nat
  | 0, _, s => s
  | k + 1, i, s => RandomIndex.indexsizeLoop e k (i + 1) (uadd s (e.ritables_ i).size)

/-- Method `indexsize()`. -/
def RandomIndex.indexsize (e : RandomIndex) : Nat := RandomIndex.indexsizeLoop e e.dims_ 0 0

/-- Number of the dimensions `i, ..., i+k-1` in which the column `coli[d]` that the
loop over the dimensions computes from `temp` lies in the negative half,
`coli[d] >= numpositive()`. -/
def RandomIndex.negLoop (e : RandomIndex) : Nat → Nat → Nat → Nat
  | 0, _, _ => 0
  | k + 1, i, temp =>
    (if temp / e.riunroll_ i ≥ (e.ritables_ i).numpositive then 1 else 0)
      + RandomIndex.negLoop e k (i + 1) (usub temp (umul (temp / e.riunroll_ i) (e.riunroll_ i)))

/-- Number of dimensions in which term `j` lies in the negative half. -/
def RandomIndex.negHits (e : RandomIndex) (j : Nat) : Nat := RandomIndex.negLoop e e.dims_ 0 j

/-- The columns `coli[i]` that the loop over the dimensions of `encode` and
`decode` computes from `temp` by division and subtraction, before the table
lookup, with `k` iterations left. -/
def RandomIndex.coliLoop (e : RandomIndex) : Nat → Nat → Nat → List Nat
  | 0, _, _ => []
  | k + 1, i, temp =>
    (temp / e.riunroll_ i)
      :: RandomIndex.coliLoop e k (i + 1)
          (usub temp (umul (temp / e.riunroll_ i) (e.riunroll_ i)))

/-- Column coordinates of the flat term index `j`. -/
def RandomIndex.coli (e : RandomIndex) (j : Nat) : List Nat := RandomIndex.coliLoop e e.dims_ 0 j

/-- The sum of `col[d] * unroll[d]` over the columns `cs` of the dimensions
`i, i+1, ...`. -/
def RandomIndex.recompose (e : RandomIndex) : List Nat → Nat → Nat
  | [], _ => 0
  | c :: cs, i => c * e.riunroll_ i + RandomIndex.recompose e cs (i + 1)

/-- Every column of `cs`, the columns of the dimensions `i, i+1, ...`, is below
the index count of its dimension. -/
def colsBelow (nr : Nat → Nat) : List Nat → Nat → Prop
  | [], _ => True
  | c :: cs, i => c < nr i ∧ colsBelow nr cs (i + 1)

/-- Index counts {2, 65534, 65534, 65534}. -/
def uxNr : Nat → Nat := fun i => if i = 0 then 2 else 65534

/-- An engine with four dimensions, data ranges 65535 and index counts
`uxNr`, as the constructor leaves it. -/
def uxE : RandomIndex :=
  match RandomIndex.new 4 (fun _ => 65535) uxNr with
  | .ok e => e
  | .error _ =>
    { dims_ := 0, datanumel_ := 0, datasat_ := 0, distnumel_ := 0,
      riunroll_ := fun _ => 0, ritables_ := fun _ => RandomIndex.noTable }

/-- Index counts {0, 65534, 65534, 65534}. -/
def zxNr : Nat → Nat := fun i => if i = 0 then 0 else 65534

/-- An engine with four dimensions, data ranges 65535 and index counts
`zxNr`, as the constructor leaves it. -/
def zxE : RandomIndex :=
  match RandomIndex.new 4 (fun _ => 65535) zxNr with
  | .ok e => e
  | .error _ =>
    { dims_ := 0, datanumel_ := 0, datasat_ := 0, distnumel_ := 0,
      riunroll_ := fun _ => 0, ritables_ := fun _ => RandomIndex.noTable }

/-- The `j` loop of `encode` entered without the test `if(weight == 0) return;`:
the call `encode(data, ind, weight)` with the early return removed. -/
def RandomIndex.encodeFull (e : RandomIndex) (data : RIBuf) (ind : Nat → Nat) (weight : Int) :
    Option Fault × (RIBuf × Nat) :=
  RandomIndex.encodeLoop e ind weight e.distnumel_ 0 (data, e.datasat_)

open RandomIndex

theorem prodFrom_succ_right (f : Nat → Nat) (i k : Nat) :
    prodFrom f i (k + 1) = prodFrom f i k * f (i + k) := by
  induction k generalizing i with
  | zero => simp [prodFrom]
  | succ k ih =>
    have h := ih (i + 1)
    have e : i + 1 + k = i + (k + 1) := by omega
    rw [e] at h
    calc prodFrom f i (k + 1 + 1) = f i * prodFrom f (i + 1) (k + 1) := rfl
      _ = f i * (prodFrom f (i + 1) k * f (i + (k + 1))) := by rw [h]
      _ = (f i * prodFrom f (i + 1) k) * f (i + (k + 1)) := by ring
      _ = prodFrom f i (k + 1) * f (i + (k + 1)) := rfl

theorem prodFrom_pos (f : Nat → Nat) (i k : Nat) (h : ∀ m, m < k → 0 < f (i + m)) :
    0 < prodFrom f i k := by
  induction k generalizing i with
  | zero => simp [prodFrom]
  | succ k ih =>
    have h0 : 0 < f i := by simpa using h 0 (by omega)
    have h1 : 0 < prodFrom f (i + 1) k := ih (i + 1) (fun m hm => by
      have := h (m + 1) (by omega)
      have e : i + (m + 1) = i + 1 + m := by omega
      rwa [e] at this)
    exact Nat.mul_pos h0 h1

theorem prodFrom_le (f g : Nat → Nat) (i k : Nat) (h : ∀ m, m < k → f (i + m) ≤ g (i + m)) :
    prodFrom f i k ≤ prodFrom g i k := by
  induction k generalizing i with
  | zero => simp [prodFrom]
  | succ k ih =>
    have h0 : f i ≤ g i := by simpa using h 0 (by omega)
    have h1 : prodFrom f (i + 1) k ≤ prodFrom g (i + 1) k := ih (i + 1) (fun m hm => by
      have := h (m + 1) (by omega)
      have e : i + (m + 1) = i + 1 + m := by omega
      rwa [e] at this)
    exact Nat.mul_le_mul h0 h1

theorem prodFrom_split (f : Nat → Nat) (i a b : Nat) :
    prodFrom f i (a + b) = prodFrom f i a * prodFrom f (i + a) b := by
  induction a generalizing i with
  | zero => simp [prodFrom]
  | succ a ih =>
    have e1 : a + 1 + b = (a + b) + 1 := by omega
    have e2 : i + (a + 1) = i + 1 + a := by omega
    rw [e1, e2]
    show f i * prodFrom f (i + 1) (a + b) = (f i * prodFrom f (i + 1) a) * _
    rw [ih (i + 1)]; ring

theorem umul_eq (a b : Nat) (h : a * b < U32) : umul a b = a * b := Nat.mod_eq_of_lt h

theorem uadd_eq (a b : Nat) (h : a + b < U32) : uadd a b = a + b := Nat.mod_eq_of_lt h

theorem usub_eq (a b : Nat) (hb : b ≤ a) (ha : a < U32) : usub a b = a - b := by
  unfold usub
  have hb' : b % U32 = b := Nat.mod_eq_of_lt (by omega)
  rw [hb']
  have : a + U32 - b = (a - b) + U32 := by omega
  rw [this, Nat.add_mod_right]
  exact Nat.mod_eq_of_lt (by omega)

/-- Without overflow the multiplication loop computes the exact product. -/
theorem unrollLoop_eq (f g : Nat → Nat) (k j acc : Nat)
    (hfg : ∀ m, m < k → f (j + m) ≤ g (j + m) ∧ 1 ≤ g (j + m))
    (hb : acc * prodFrom g j k < U32) :
    unrollLoop f k j acc = acc * prodFrom f j k := by
  induction k generalizing j acc with
  | zero => simp [unrollLoop, prodFrom]
  | succ k ih =>
    have h0 := hfg 0 (by omega)
    simp only [Nat.add_zero] at h0
    have hrest : ∀ m, m < k → f (j + 1 + m) ≤ g (j + 1 + m) ∧ 1 ≤ g (j + 1 + m) := fun m hm => by
      have := hfg (m + 1) (by omega)
      have e : j + (m + 1) = j + 1 + m := by omega
      rwa [e] at this
    have hgpos : 0 < prodFrom g (j + 1) k :=
      prodFrom_pos g (j + 1) k (fun m hm => (hrest m hm).2)
    have hb' : acc * (g j * prodFrom g (j + 1) k) < U32 := hb
    have h1 : acc * f j ≤ acc * (g j * prodFrom g (j + 1) k) := by
      apply Nat.mul_le_mul_left
      calc f j ≤ g j := h0.1
        _ = g j * 1 := (Nat.mul_one _).symm
        _ ≤ g j * prodFrom g (j + 1) k := Nat.mul_le_mul_left _ hgpos
    have h2 : umul acc (f j) = acc * f j := umul_eq _ _ (by omega)
    have h3 : acc * f j * prodFrom g (j + 1) k < U32 := by
      calc acc * f j * prodFrom g (j + 1) k ≤ acc * g j * prodFrom g (j + 1) k :=
            Nat.mul_le_mul_right _ (Nat.mul_le_mul_left _ h0.1)
        _ = acc * (g j * prodFrom g (j + 1) k) := by ring
        _ < U32 := hb'
    show unrollLoop f k (j + 1) (umul acc (f j)) = acc * (f j * prodFrom f (j + 1) k)
    rw [h2, ih (j + 1) (acc * f j) hrest h3]; ring

theorem RITable.new_ok {d c : Nat} {t : RITable} (h : RITable.new d c = .ok t) :
    d ≤ MAX_RIIndex ∧ c % 2 = 0 ∧ c < d ∧
      t.datarange_ = d ∧ t.cols_ = c ∧ t.rows_ = 0 ∧ t.cap_ = 0 := by
  unfold RITable.new at h
  split_ifs at h with h1 h2 h3
  · simp only [not_not] at h1 h2 h3
    injection h with h
    subst h
    exact ⟨h1, h2, h3, rfl, rfl, rfl, rfl⟩

theorem newLoop_spec (dims : Nat) (dr nr : Nat → Nat) (k i : Nat) (e e' : RandomIndex)
    (h : newLoop dims dr nr k i e = .ok e') :
    e'.dims_ = e.dims_ ∧ e'.datasat_ = e.datasat_ ∧
    e'.datanumel_ = unrollLoop dr k i e.datanumel_ ∧
    e'.distnumel_ = unrollLoop nr k i e.distnumel_ ∧
    (∀ m, i ≤ m → m < i + k →
      e'.riunroll_ m = unrollLoop nr (dims - (m + 1)) (m + 1) 1 ∧
      RITable.new (dr m) (nr m) = .ok (e'.ritables_ m)) ∧
    (∀ m, m < i → e'.riunroll_ m = e.riunroll_ m ∧ e'.ritables_ m = e.ritables_ m) := by
  induction k generalizing i e with
  | zero =>
    simp only [newLoop] at h
    injection h with h
    subst h
    refine ⟨rfl, rfl, rfl, rfl, ?_, fun m _ => ⟨rfl, rfl⟩⟩
    intro m h1 h2; omega
  | succ k ih =>
    simp only [newLoop] at h
    cases ht : RITable.new (dr i) (nr i) with
    | error f => rw [ht] at h; cases h
    | ok t =>
      rw [ht] at h
      obtain ⟨a1, a2, a3, a4, a5, a6⟩ := ih (i + 1) _ h
      refine ⟨a1, a2, a3, a4, ?_, ?_⟩
      · intro m h1 h2
        rcases Nat.eq_or_lt_of_le h1 with hm | hm
        · subst hm
          have := a6 i (by omega)
          simp only [Function.update_same] at this
          rw [this.1, this.2]
          exact ⟨rfl, ht⟩
        · exact a5 m (by omega) (by omega)
      · intro m hm
        have := a6 m (by omega)
        have hne : m ≠ i := by omega
        simp only [Function.update_noteq hne] at this
        exact this

theorem new_built {dims : Nat} {dr nr : Nat → Nat} {e : RandomIndex}
    (h : RandomIndex.new dims dr nr = .ok e) : Built dims dr nr e := by
  have h' := h
  unfold RandomIndex.new at h
  split_ifs at h with h1
  simp only [not_not] at h1
  obtain ⟨a1, a2, a3, a4, a5, _⟩ := newLoop_spec _ _ _ _ _ _ _ h
  have tab : ∀ i, i < dims → RITable.new (dr i) (nr i) = .ok (e.ritables_ i) :=
    fun i hi => (a5 i (by omega) (by omega)).2
  exact
    { dims_pos := h1
      dims_eq := a1
      datanumel_eq := a3
      distnumel_eq := a4
      unroll_eq := fun i hi => (a5 i (by omega) (by omega)).1
      range_le := fun i hi => (RITable.new_ok (tab i hi)).1
      cols_even := fun i hi => (RITable.new_ok (tab i hi)).2.1
      cols_lt := fun i hi => (RITable.new_ok (tab i hi)).2.2.1
      tab_range := fun i hi => (RITable.new_ok (tab i hi)).2.2.2.1
      tab_cols := fun i hi => (RITable.new_ok (tab i hi)).2.2.2.2.1 }

theorem RandomIndex.Built.dr_pos {dims : Nat} {dr nr : Nat → Nat} {e : RandomIndex}
    (hb : Built dims dr nr e) (i : Nat) (hi : i < dims) : 1 ≤ dr i := by
  have := hb.cols_lt i hi
  omega

theorem RandomIndex.Built.sub_le {dims : Nat} {dr nr : Nat → Nat} {e : RandomIndex}
    (hb : Built dims dr nr e) (i k : Nat) (hik : i + k ≤ dims) :
    prodFrom dr i k ≤ prodFrom dr 0 dims := by
  have e1 : dims = i + (k + (dims - (i + k))) := by omega
  have h1 : prodFrom dr 0 dims
      = prodFrom dr 0 i * (prodFrom dr i k * prodFrom dr (i + k) (dims - (i + k))) := by
    conv_lhs => rw [e1]
    rw [prodFrom_split, prodFrom_split]
    simp
  have p1 : 0 < prodFrom dr 0 i :=
    prodFrom_pos dr 0 i (fun m hm => hb.dr_pos _ (by omega))
  have p2 : 0 < prodFrom dr (i + k) (dims - (i + k)) :=
    prodFrom_pos dr (i + k) _ (fun m hm => hb.dr_pos _ (by omega))
  rw [h1]
  calc prodFrom dr i k = 1 * (prodFrom dr i k * 1) := by ring
    _ ≤ prodFrom dr 0 i * (prodFrom dr i k * prodFrom dr (i + k) (dims - (i + k))) :=
      Nat.mul_le_mul p1 (Nat.mul_le_mul_left _ p2)

theorem RandomIndex.Built.nr_prod_le {dims : Nat} {dr nr : Nat → Nat} {e : RandomIndex}
    (hb : Built dims dr nr e) (i k : Nat) (hik : i + k ≤ dims) :
    prodFrom nr i k ≤ prodFrom dr i k :=
  prodFrom_le nr dr i k (fun m hm => Nat.le_of_lt (hb.cols_lt _ (by omega)))

theorem RandomIndex.Built.loop_exact {dims : Nat} {dr nr : Nat → Nat} {e : RandomIndex}
    (hb : Built dims dr nr e) (hfit : prodFrom dr 0 dims < U32) (f : Nat → Nat)
    (hf : ∀ m, m < dims → f m ≤ dr m) (i k : Nat) (hik : i + k ≤ dims) :
    unrollLoop f k i 1 = prodFrom f i k := by
  have h := unrollLoop_eq f dr k i 1
    (fun m hm => ⟨hf _ (by omega), hb.dr_pos _ (by omega)⟩)
    (by have := hb.sub_le i k hik; omega)
  simpa using h

theorem RandomIndex.Built.datanumel_exact {dims : Nat} {dr nr : Nat → Nat} {e : RandomIndex}
    (hb : Built dims dr nr e) (hfit : prodFrom dr 0 dims < U32) :
    e.datanumel_ = prodFrom dr 0 dims := by
  rw [hb.datanumel_eq]
  exact hb.loop_exact hfit dr (fun m _ => Nat.le_refl _) 0 dims (by omega)

theorem RandomIndex.Built.distnumel_exact {dims : Nat} {dr nr : Nat → Nat} {e : RandomIndex}
    (hb : Built dims dr nr e) (hfit : prodFrom dr 0 dims < U32) :
    e.distnumel_ = prodFrom nr 0 dims := by
  rw [hb.distnumel_eq]
  exact hb.loop_exact hfit nr (fun m hm => Nat.le_of_lt (hb.cols_lt m hm)) 0 dims (by omega)

theorem RandomIndex.Built.unroll_exact {dims : Nat} {dr nr : Nat → Nat} {e : RandomIndex}
    (hb : Built dims dr nr e) (hfit : prodFrom dr 0 dims < U32) (i : Nat) (hi : i < dims) :
    e.riunroll_ i = prodFrom nr (i + 1) (dims - (i + 1)) := by
  rw [hb.unroll_eq i hi]
  exact hb.loop_exact hfit nr (fun m hm => Nat.le_of_lt (hb.cols_lt m hm)) _ _ (by omega)

theorem RITable.Valid.item_eq {t : RITable} (hv : t.Valid) (r c : Nat)
    (hr : r < t.rows_) (hc : c < t.cols_) :
    t.item r c = .ok (t.table_ (r * t.cols_ + c)) ∧ t.table_ (r * t.cols_ + c) < t.datarange_ := by
  have h1 : r * t.cols_ + c < t.rows_ * t.cols_ := by
    calc r * t.cols_ + c < r * t.cols_ + t.cols_ := by omega
      _ = (r + 1) * t.cols_ := by ring
      _ ≤ t.rows_ * t.cols_ := Nat.mul_le_mul_right _ hr
  have h2 := hv.fits
  have h3 := hv.alloc
  have hp : t.pos r c = r * t.cols_ + c := by
    unfold RITable.pos
    rw [umul_eq _ _ (by omega), uadd_eq _ _ (by omega)]
  have hb := hv.below r hr c hc
  refine ⟨?_, hb⟩
  unfold RITable.item
  rw [hp]
  simp [hr, hc, hb]
  omega

/-- One iteration of the loop over the dimensions, without wrap-around. -/
theorem termLoop_step {dims : Nat} {dr nr : Nat → Nat} {e : RandomIndex} {ind : Nat → Nat}
    (hr : Ready dims dr nr e ind) (k i temp D : Nat) (w : Int)
    (hik : i + (k + 1) = dims) (ht : temp < prodFrom nr i (k + 1)) (hD : D < prodFrom dr 0 i) :
    0 < prodFrom nr (i + 1) k ∧ temp / prodFrom nr (i + 1) k < nr i ∧
    (e.ritables_ i).table_ (ind i * nr i + temp / prodFrom nr (i + 1) k) < dr i ∧
    (e.ritables_ i).table_ (ind i * nr i + temp / prodFrom nr (i + 1) k) + dr i * D
      < prodFrom dr 0 (i + 1) ∧
    termLoop e ind (k + 1) i temp D w =
      termLoop e ind k (i + 1) (temp % prodFrom nr (i + 1) k)
        ((e.ritables_ i).table_ (ind i * nr i + temp / prodFrom nr (i + 1) k) + dr i * D)
        (if temp / prodFrom nr (i + 1) k ≥ nr i / 2 then toRIData (-w) else w) := by
  have hi : i < dims := by omega
  have hb := hr.built
  have hu : e.riunroll_ i = prodFrom nr (i + 1) k := by
    rw [hb.unroll_exact hr.fit i hi]
    congr 1; omega
  have ht' : temp < nr i * prodFrom nr (i + 1) k := ht
  have hR : 0 < prodFrom nr (i + 1) k := by
    rcases Nat.eq_zero_or_pos (prodFrom nr (i + 1) k) with h0 | h0
    · rw [h0] at ht'; omega
    · exact h0
  have hcol : temp / prodFrom nr (i + 1) k < nr i :=
    (Nat.div_lt_iff_lt_mul hR).2 ht'
  have hcols := hb.tab_cols i hi
  have hrange := hb.tab_range i hi
  have hitem := (hr.valid i hi).item_eq (ind i) (temp / prodFrom nr (i + 1) k)
    (hr.covered i hi) (by rw [hcols]; exact hcol)
  rw [hcols, hrange] at hitem
  have hU : temp < U32 := by
    have h1 := hb.nr_prod_le i (k + 1) (by omega)
    have h2 := hb.sub_le i (k + 1) (by omega)
    have h3 := hr.fit
    omega
  have hmul : temp / prodFrom nr (i + 1) k * prodFrom nr (i + 1) k ≤ temp :=
    Nat.div_mul_le_self _ _
  have hsub : usub temp (umul (temp / prodFrom nr (i + 1) k) (prodFrom nr (i + 1) k))
      = temp % prodFrom nr (i + 1) k := by
    rw [umul_eq _ _ (by omega), usub_eq _ _ hmul hU]
    have := Nat.div_add_mod temp (prodFrom nr (i + 1) k)
    have hc : prodFrom nr (i + 1) k * (temp / prodFrom nr (i + 1) k)
        = temp / prodFrom nr (i + 1) k * prodFrom nr (i + 1) k := Nat.mul_comm _ _
    omega
  have hprod : prodFrom dr 0 (i + 1) = prodFrom dr 0 i * dr i := by
    have := prodFrom_succ_right dr 0 i
    simpa using this
  have hDnew : (e.ritables_ i).table_ (ind i * nr i + temp / prodFrom nr (i + 1) k) + dr i * D
      < prodFrom dr 0 (i + 1) := by
    rw [hprod]
    have h1 : dr i * (D + 1) ≤ dr i * prodFrom dr 0 i := Nat.mul_le_mul_left _ hD
    have h2 : dr i * (D + 1) = dr i * D + dr i := by ring
    have h3 : dr i * prodFrom dr 0 i = prodFrom dr 0 i * dr i := Nat.mul_comm _ _
    have := hitem.2
    omega
  have hle : prodFrom dr 0 (i + 1) ≤ prodFrom dr 0 dims := hb.sub_le 0 (i + 1) (by omega)
  have hfit := hr.fit
  have hadd : uadd ((e.ritables_ i).table_ (ind i * nr i + temp / prodFrom nr (i + 1) k))
      (umul (e.ritables_ i).datarange D)
      = (e.ritables_ i).table_ (ind i * nr i + temp / prodFrom nr (i + 1) k) + dr i * D := by
    have hd : (e.ritables_ i).datarange = dr i := hrange
    rw [hd, umul_eq _ _ (by omega), uadd_eq _ _ (by omega)]
  refine ⟨hR, hcol, hitem.2, hDnew, ?_⟩
  have hnp : (e.ritables_ i).numpositive = nr i / 2 := by
    unfold RITable.numpositive; rw [hcols]
  have hne : ¬ e.riunroll_ i = 0 := by rw [hu]; omega
  rw [termLoop]
  simp only [hne, if_false]
  rw [hu, hitem.1]
  simp only []
  rw [hsub, hadd, hnp]

theorem toRIData_neg (x : Int) (h1 : -32767 ≤ x) (h2 : x ≤ 32767) : toRIData (-x) = -x := by
  unfold toRIData
  omega

/-- The negated variable of the loop over the dimensions only flows to the
result: scaling the start value scales the result. -/
theorem termLoop_scale (e : RandomIndex) (ind : Nat → Nat) (c : Int) :
    ∀ (k i temp D : Nat) (x : Int) (X : Nat) (x' : Int),
      -32767 ≤ x → x ≤ 32767 → -32767 ≤ c * x → c * x ≤ 32767 →
      termLoop e ind k i temp D x = .ok (X, x') →
      (x' = x ∨ x' = -x) ∧ termLoop e ind k i temp D (c * x) = .ok (X, c * x') := by
  intro k
  induction k with
  | zero =>
    intro i temp D x X x' _ _ _ _ h
    simp only [termLoop] at h
    injection h with h
    injection h with h1 h2
    subst h1 h2
    exact ⟨Or.inl rfl, rfl⟩
  | succ k ih =>
    intro i temp D x X x' a1 a2 a3 a4 h
    rw [termLoop] at h ⊢
    by_cases hz : e.riunroll_ i = 0
    · simp [hz] at h
    · simp only [hz, if_false] at h ⊢
      cases hit : (e.ritables_ i).item (ind i) (temp / e.riunroll_ i) with
      | error f => rw [hit] at h; cases h
      | ok r =>
        rw [hit] at h
        simp only [] at h ⊢
        by_cases hs : temp / e.riunroll_ i ≥ (e.ritables_ i).numpositive
        · simp only [hs, if_true] at h ⊢
          rw [toRIData_neg x a1 a2] at h
          rw [toRIData_neg (c * x) a3 a4]
          have hcx : -(c * x) = c * (-x) := by ring
          rw [hcx]
          have := ih (i + 1) _ _ (-x) X x' (by omega) (by omega)
            (by rw [← hcx]; omega) (by rw [← hcx]; omega) h
          refine ⟨?_, this.2⟩
          rcases this.1 with h1 | h1
          · exact Or.inr h1
          · left; rw [h1]; simp
        · simp only [hs, if_false] at h ⊢
          exact ih (i + 1) _ _ x X x' a1 a2 a3 a4 h

/-- In the wrap-free setting the loop over the dimensions returns, and its
offset lies inside the data buffer. -/
theorem termLoop_ok {dims : Nat} {dr nr : Nat → Nat} {e : RandomIndex} {ind : Nat → Nat}
    (hr : Ready dims dr nr e ind) :
    ∀ (k i temp D : Nat) (w : Int), i + k = dims → temp < prodFrom nr i k →
      D < prodFrom dr 0 i →
      ∃ X w', termLoop e ind k i temp D w = .ok (X, w') ∧ X < prodFrom dr 0 dims := by
  intro k
  induction k with
  | zero =>
    intro i temp D w hik _ hD
    have : i = dims := by omega
    subst this
    exact ⟨D, w, rfl, hD⟩
  | succ k ih =>
    intro i temp D w hik ht hD
    obtain ⟨_, _, _, hDn, hstep⟩ := termLoop_step hr k i temp D w hik ht hD
    rw [hstep]
    exact ih (i + 1) _ _ _ (by omega) (Nat.mod_lt _ (by assumption)) hDn

theorem radix_unique (n a b x y : Nat) (ha : a < n) (hb : b < n)
    (h : a + n * x = b + n * y) : a = b ∧ x = y := by
  have hn : 0 < n := by omega
  have h1 : (a + n * x) % n = a := by
    rw [Nat.add_mul_mod_self_left]; exact Nat.mod_eq_of_lt ha
  have h2 : (b + n * y) % n = b := by
    rw [Nat.add_mul_mod_self_left]; exact Nat.mod_eq_of_lt hb
  have hab : a = b := by rw [← h1, ← h2, h]
  subst hab
  have : n * x = n * y := by omega
  exact ⟨rfl, Nat.eq_of_mul_eq_mul_left hn this⟩

/-- Two runs of the loop over the dimensions that end at the same offset
started from the same `temp` and `dataindex`. -/
theorem termLoop_inj {dims : Nat} {dr nr : Nat → Nat} {e : RandomIndex} {ind : Nat → Nat}
    (hr : Ready dims dr nr e ind) :
    ∀ (k i temp temp' D D' : Nat) (w w' : Int) (X : Nat) (a b : Int), i + k = dims →
      temp < prodFrom nr i k → temp' < prodFrom nr i k →
      D < prodFrom dr 0 i → D' < prodFrom dr 0 i →
      termLoop e ind k i temp D w = .ok (X, a) → termLoop e ind k i temp' D' w' = .ok (X, b) →
      temp = temp' ∧ D = D' := by
  intro k
  induction k with
  | zero =>
    intro i temp temp' D D' w w' X a b _ ht ht' _ _ h h'
    simp only [termLoop] at h h'
    injection h with h; injection h with h1 _
    injection h' with h'; injection h' with h1' _
    simp only [prodFrom] at ht ht'
    exact ⟨by omega, by omega⟩
  | succ k ih =>
    intro i temp temp' D D' w w' X a b hik ht ht' hD hD' h h'
    obtain ⟨hR, hc, hv, hDn, hstep⟩ := termLoop_step hr k i temp D w hik ht hD
    obtain ⟨_, hc', hv', hDn', hstep'⟩ := termLoop_step hr k i temp' D' w' hik ht' hD'
    rw [hstep] at h
    rw [hstep'] at h'
    obtain ⟨e1, e2⟩ := ih (i + 1) _ _ _ _ _ _ X a b (by omega)
      (Nat.mod_lt _ hR) (Nat.mod_lt _ hR) hDn hDn' h h'
    obtain ⟨e3, e4⟩ := radix_unique (dr i) _ _ D D' hv hv' e2
    have hi : i < dims := by omega
    have hcols := hr.built.tab_cols i hi
    have hd := (hr.valid i hi).distinct (ind i) (hr.covered i hi)
      (temp / prodFrom nr (i + 1) k) (by rw [hcols]; exact hc)
      (temp' / prodFrom nr (i + 1) k) (by rw [hcols]; exact hc')
      (by rw [hcols]; exact e3)
    refine ⟨?_, e4⟩
    have m1 := Nat.div_add_mod temp (prodFrom nr (i + 1) k)
    have m2 := Nat.div_add_mod temp' (prodFrom nr (i + 1) k)
    rw [← m1, ← m2, hd, e1]

/-- In the wrap-free setting every term below `distnumel_` returns the offset
`offs` (inside the buffer) and the weight multiplied by the sign `sgn`. -/
theorem term_eq {dims : Nat} {dr nr : Nat → Nat} {e : RandomIndex} {ind : Nat → Nat}
    (hr : Ready dims dr nr e ind) (j : Nat) (hj : j < e.distnumel_) :
    offs e ind j < e.datanumel_ ∧ (sgn e ind j = 1 ∨ sgn e ind j = -1) ∧
    ∀ w : Int, -32767 ≤ w → w ≤ 32767 → term e ind w j = .ok (offs e ind j, w * sgn e ind j) := by
  have hd := hr.built.dims_eq
  have hdist := hr.built.distnumel_exact hr.fit
  have hdata := hr.built.datanumel_exact hr.fit
  obtain ⟨X, s, h1, h2⟩ := termLoop_ok hr dims 0 j 0 1 (by omega) (by rw [← hdist]; exact hj)
    (by simp [prodFrom])
  have ht : term e ind 1 j = .ok (X, s) := by unfold term; rw [hd]; exact h1
  have ho : offs e ind j = X := by unfold offs; rw [ht]
  have hs : sgn e ind j = s := by unfold sgn; rw [ht]
  rw [ho, hs, hdata]
  have hsc := fun c a3 a4 =>
    termLoop_scale e ind c dims 0 j 0 1 X s (by omega) (by omega) a3 a4 h1
  have hs1 := (hsc 1 (by omega) (by omega)).1
  refine ⟨h2, hs1, ?_⟩
  intro w a1 a2
  have := (hsc w (by omega) (by omega)).2
  unfold term
  rw [hd]
  simpa using this

/-- Distinct terms address distinct cells. -/
theorem offs_inj {dims : Nat} {dr nr : Nat → Nat} {e : RandomIndex} {ind : Nat → Nat}
    (hr : Ready dims dr nr e ind) (j j' : Nat) (hj : j < e.distnumel_) (hj' : j' < e.distnumel_)
    (h : offs e ind j = offs e ind j') : j = j' := by
  have hd := hr.built.dims_eq
  have hdist := hr.built.distnumel_exact hr.fit
  have t1 := (term_eq hr j hj).2.2 1 (by omega) (by omega)
  have t2 := (term_eq hr j' hj').2.2 1 (by omega) (by omega)
  rw [← h] at t2
  unfold term at t1 t2
  rw [hd] at t1 t2
  exact (termLoop_inj hr dims 0 j j' 0 0 1 1 _ _ _ (by omega) (by rw [← hdist]; exact hj)
    (by rw [← hdist]; exact hj') (by simp [prodFrom]) (by simp [prodFrom]) t1 t2).1

theorem contrib_succ (e : RandomIndex) (ind : Nat → Nat) (w : Int) (j k q : Nat) :
    contrib e ind w j (k + 1) q
      = (if offs e ind j = q then w * sgn e ind j else 0) + contrib e ind w (j + 1) k q := by
  unfold contrib
  rw [Finset.sum_range_succ']
  simp only [Nat.add_zero]
  rw [add_comm]
  congr 1
  apply Finset.sum_congr rfl
  intro m _
  have : j + (m + 1) = j + 1 + m := by omega
  rw [this]

/-- A contribution is the single term that addresses the cell, if there is one. -/
theorem contrib_at {dims : Nat} {dr nr : Nat → Nat} {e : RandomIndex} {ind : Nat → Nat}
    (hr : Ready dims dr nr e ind) (w : Int) (j k m : Nat) (hm : m < k)
    (hjk : j + k ≤ e.distnumel_) :
    contrib e ind w j k (offs e ind (j + m)) = w * sgn e ind (j + m) := by
  unfold contrib
  rw [Finset.sum_eq_single m]
  · simp
  · intro b hb hne
    have hb' : b < k := Finset.mem_range.1 hb
    have : offs e ind (j + b) ≠ offs e ind (j + m) := fun h =>
      hne (by have := offs_inj hr _ _ (by omega) (by omega) h; omega)
    simp [this]
  · intro h
    exact absurd (Finset.mem_range.2 hm) h

/-- Closed form of the `j` loop of `encode` when no sum leaves the range of
`RIData`: no fault, no saturation event, and every cell has received the
contributions of the terms that address it. -/
theorem encodeLoop_exact {dims : Nat} {dr nr : Nat → Nat} {e : RandomIndex} {ind : Nat → Nat}
    (hr : Ready dims dr nr e ind) (w : Int) (hw1 : -32767 ≤ w) (hw2 : w ≤ 32767) :
    ∀ (k j : Nat) (st : RIBuf × Nat), j + k ≤ e.distnumel_ → st.1.numel = e.datanumel_ →
      (∀ m, m < k → MIN_RIData ≤ st.1.cell (offs e ind (j + m)) + w * sgn e ind (j + m) ∧
        st.1.cell (offs e ind (j + m)) + w * sgn e ind (j + m) ≤ MAX_RIData) →
      ∃ b : RIBuf, encodeLoop e ind w k j st = (none, (b, st.2)) ∧ b.numel = st.1.numel ∧
        ∀ q, b.cell q = st.1.cell q + contrib e ind w j k q := by
  intro k
  induction k with
  | zero =>
    intro j st _ _ _
    exact ⟨st.1, rfl, rfl, fun q => by simp [contrib]⟩
  | succ k ih =>
    intro j st hjk hn hns
    obtain ⟨ho, _, ht⟩ := term_eq hr j (by omega)
    have h0 := hns 0 (by omega)
    simp only [Nat.add_zero] at h0
    have hterm : encodeTerm e ind w st j
        = .ok (st.1.write (offs e ind j) (st.1.cell (offs e ind j) + w * sgn e ind j), st.2) := by
      unfold encodeTerm
      rw [ht w hw1 hw2]
      simp only [store]
      have : offs e ind j < st.1.numel := by rw [hn]; exact ho
      simp [this, h0]
    have hns' : ∀ m, m < k →
        MIN_RIData ≤ (st.1.write (offs e ind j)
            (st.1.cell (offs e ind j) + w * sgn e ind j)).cell (offs e ind (j + 1 + m))
          + w * sgn e ind (j + 1 + m) ∧
        (st.1.write (offs e ind j)
            (st.1.cell (offs e ind j) + w * sgn e ind j)).cell (offs e ind (j + 1 + m))
          + w * sgn e ind (j + 1 + m) ≤ MAX_RIData := by
      intro m hm
      have hne : offs e ind (j + 1 + m) ≠ offs e ind j := fun h => by
        have := offs_inj hr _ _ (by omega) (by omega) h
        omega
      have := hns (m + 1) (by omega)
      have e1 : j + (m + 1) = j + 1 + m := by omega
      rw [e1] at this
      simpa [RIBuf.write, hne] using this
    obtain ⟨b, hb1, hb2, hb3⟩ := ih (j + 1)
      (st.1.write (offs e ind j) (st.1.cell (offs e ind j) + w * sgn e ind j), st.2)
      (by omega) hn hns'
    refine ⟨b, ?_, hb2, ?_⟩
    · rw [encodeLoop, hterm]
      exact hb1
    · intro q
      rw [hb3 q, contrib_succ]
      by_cases hq : offs e ind j = q
      · subst hq
        simp [RIBuf.write]
        ring
      · have hq' : ¬ q = offs e ind j := fun h => hq h.symm
        simp [RIBuf.write, hq, hq']

/-- Closed form of the `j` loop of `decode`. -/
theorem decodeLoop_sum {dims : Nat} {dr nr : Nat → Nat} {e : RandomIndex} {ind : Nat → Nat}
    (hr : Ready dims dr nr e ind) (data : RIBuf) (hn : data.numel = e.datanumel_) :
    ∀ (k j : Nat) (acc : Int), j + k ≤ e.distnumel_ →
      decodeLoop e data ind k j acc
        = .ok (acc + (Finset.range k).sum
            (fun m => sgn e ind (j + m) * data.cell (offs e ind (j + m)))) := by
  intro k
  induction k with
  | zero => intro j acc _; simp [decodeLoop]
  | succ k ih =>
    intro j acc hjk
    obtain ⟨ho, _, ht⟩ := term_eq hr j (by omega)
    have ht1 := ht 1 (by omega) (by omega)
    simp only [one_mul] at ht1
    have hlt : offs e ind j < data.numel := by rw [hn]; exact ho
    rw [decodeLoop, ht1]
    simp only [hlt, not_true_eq_false, if_false]
    rw [ih (j + 1) _ (by omega), Finset.sum_range_succ']
    simp only [Nat.add_zero]
    have hs : (Finset.range k).sum
          (fun m => sgn e ind (j + (m + 1)) * data.cell (offs e ind (j + (m + 1))))
        = (Finset.range k).sum
          (fun m => sgn e ind (j + 1 + m) * data.cell (offs e ind (j + 1 + m))) := by
      apply Finset.sum_congr rfl
      intro m _
      have : j + (m + 1) = j + 1 + m := by omega
      rw [this]
    rw [hs]
    congr 1
    ring

/-- A constructed engine stays `Built` when its tables are replaced by tables of
the constructed shape and its saturation counter by any value. -/
theorem built_with {dims : Nat} {dr nr : Nat → Nat} {e0 : RandomIndex}
    (h : RandomIndex.new dims dr nr = .ok e0) (tabs : Nat → RITable) (sat : Nat)
    (hshape : ∀ i, i < dims → (tabs i).datarange_ = dr i ∧ (tabs i).cols_ = nr i) :
    Built dims dr nr { e0 with ritables_ := tabs, datasat_ := sat } := by
  have hb := new_built h
  exact
    { dims_pos := hb.dims_pos
      dims_eq := hb.dims_eq
      datanumel_eq := hb.datanumel_eq
      distnumel_eq := hb.distnumel_eq
      unroll_eq := hb.unroll_eq
      range_le := hb.range_le
      cols_even := hb.cols_even
      cols_lt := hb.cols_lt
      tab_range := fun i hi => (hshape i hi).1
      tab_cols := fun i hi => (hshape i hi).2 }

theorem sgn_sq {dims : Nat} {dr nr : Nat → Nat} {e : RandomIndex} {ind : Nat → Nat}
    (hr : Ready dims dr nr e ind) (j : Nat) (hj : j < e.distnumel_) :
    sgn e ind j * sgn e ind j = 1 := by
  rcases (term_eq hr j hj).2.1 with h | h <;> rw [h] <;> norm_num

/-- Encoding one weight into a zeroed buffer and decoding at the same
coordinate, in the wrap-free setting. -/
theorem roundtrip_ready {dims : Nat} {dr nr : Nat → Nat} {e : RandomIndex} {ind : Nat → Nat}
    (hr : Ready dims dr nr e ind) (hpos : 0 < e.distnumel_)
    (w : Int) (hw1 : -32767 ≤ w) (hw2 : w ≤ 32767) :
    ∃ b : RIBuf, encode e (RIBuf.zero e.datanumel_) ind w = (none, (b, e.datasat_)) ∧
      decode e b ind = .ok (some (w : ℚ)) := by
  have hsg : ∀ j, j < e.distnumel_ → -32767 ≤ w * sgn e ind j ∧ w * sgn e ind j ≤ 32767 := by
    intro j hj
    rcases (term_eq hr j hj).2.1 with h | h <;> rw [h] <;> constructor <;> omega
  obtain ⟨b, hb1, hb2, hb3⟩ := encodeLoop_exact hr w hw1 hw2 e.distnumel_ 0
    (RIBuf.zero e.datanumel_, e.datasat_) (by omega) rfl
    (fun m hm => by
      have := hsg (0 + m) (by omega)
      simp only [RIBuf.zero, MIN_RIData, MAX_RIData]
      omega)
  have hdec : decode e b ind = .ok (some (w : ℚ)) := by
    unfold decode
    rw [decodeLoop_sum hr b (by rw [hb2]; rfl) e.distnumel_ 0 0 (by omega)]
    have hsum : (Finset.range e.distnumel_).sum
        (fun m => sgn e ind (0 + m) * b.cell (offs e ind (0 + m)))
        = (Finset.range e.distnumel_).sum (fun _ => w) := by
      apply Finset.sum_congr rfl
      intro m hm
      have hm' : m < e.distnumel_ := Finset.mem_range.1 hm
      rw [hb3, contrib_at hr w 0 e.distnumel_ m hm' (by omega)]
      simp only [RIBuf.zero, zero_add]
      calc sgn e ind m * (w * sgn e ind m)
          = w * (sgn e ind m * sgn e ind m) := by ring
        _ = w := by rw [sgn_sq hr m hm']; ring
    rw [hsum]
    simp only [Finset.sum_const, Finset.card_range, zero_add, fdiv]
    have hne : ¬ e.distnumel_ = 0 := by omega
    simp only [hne, if_false]
    congr 2
    have : (e.distnumel_ : ℚ) ≠ 0 := by exact_mod_cast hne
    field_simp
  by_cases hw0 : w = 0
  · subst hw0
    refine ⟨RIBuf.zero e.datanumel_, by simp [encode], ?_⟩
    have hbz : b = RIBuf.zero e.datanumel_ := by
      have hc : b.cell = fun _ => 0 := by
        funext q
        rw [hb3]
        simp [RIBuf.zero, contrib]
      cases b
      simp only [RIBuf.zero] at hb2 hc ⊢
      subst hb2 hc
      rfl
    rw [← hbz]
    exact hdec
  · refine ⟨b, ?_, hdec⟩
    unfold encode
    simp only [hw0, if_false]
    exact hb1

theorem ready_with {dims : Nat} {dr nr : Nat → Nat} {e0 : RandomIndex}
    (hnew : RandomIndex.new dims dr nr = .ok e0) (hfit : prodFrom dr 0 dims < U32)
    (tabs : Nat → RITable) (sat : Nat)
    (hshape : ∀ i, i < dims → (tabs i).datarange_ = dr i ∧ (tabs i).cols_ = nr i)
    (hvalid : ∀ i, i < dims → (tabs i).Valid)
    (c : Nat → Nat) (hc : ∀ i, i < dims → c i < (tabs i).rows) :
    Ready dims dr nr { e0 with ritables_ := tabs, datasat_ := sat } c :=
  { built := built_with hnew tabs sat hshape
    fit := hfit
    valid := hvalid
    covered := hc }

theorem distnumel_pos {dims : Nat} {dr nr : Nat → Nat} {e : RandomIndex}
    (hb : Built dims dr nr e) (hfit : prodFrom dr 0 dims < U32)
    (hnr : ∀ i, i < dims → 2 ≤ nr i) : 0 < e.distnumel_ := by
  rw [hb.distnumel_exact hfit]
  exact prodFrom_pos nr 0 dims (fun m hm => by
    have := hnr (0 + m) (by omega)
    omega)

/-- C1 (amended): for an engine constructed from `(dims, dr, nr)` whose product of data
ranges fits 32 bits and whose index counts are all at least 2, tables of the
constructed shape that satisfy the row invariant, a coordinate `c` covered by
the tables and a weight `w` of `RIData` other than -32768, `encode` of `w` at
`c` into a zeroed buffer of `datanumel_` elements returns without fault and
without a saturation event, and `decode` at `c` then returns exactly `w`. -/
theorem C1_single_write_roundtrip (dims : Nat) (dr nr : Nat → Nat) (e0 : RandomIndex)
    (hnew : RandomIndex.new dims dr nr = .ok e0) (hfit : prodFrom dr 0 dims < U32)
    (hnr : ∀ i, i < dims → 2 ≤ nr i)
    (tabs : Nat → RITable) (sat : Nat)
    (hshape : ∀ i, i < dims → (tabs i).datarange_ = dr i ∧ (tabs i).cols_ = nr i)
    (hvalid : ∀ i, i < dims → (tabs i).Valid)
    (c : Nat → Nat) (hc : ∀ i, i < dims → c i < (tabs i).rows)
    (w : Int) (hw1 : -32767 ≤ w) (hw2 : w ≤ 32767) :
    ∃ b : RIBuf,
      encode { e0 with ritables_ := tabs, datasat_ := sat } (RIBuf.zero e0.datanumel_) c w
        = (none, (b, sat)) ∧
      decode { e0 with ritables_ := tabs, datasat_ := sat } b c = .ok (some (w : ℚ)) := by
  have hr := ready_with hnew hfit tabs sat hshape hvalid c hc
  exact roundtrip_ready hr (distnumel_pos hr.built hfit hnr) w hw1 hw2

/-- C1 witness: the scenario of the specification, data ranges {10000, 1000}, index
counts {8, 4}, weight 5 at (3, 7): decoding returns 5. -/
theorem C1_single_write_roundtrip_witness :
    ∃ b : RIBuf,
      encode { exE0 with ritables_ := exTab, datasat_ := 0 } (RIBuf.zero exE0.datanumel_) exInd 5
        = (none, (b, 0)) ∧
      decode { exE0 with ritables_ := exTab, datasat_ := 0 } b exInd = .ok (some ((5 : Int) : ℚ)) :=
  C1_single_write_roundtrip 2 exDr exNr exE0 rfl (by decide)
    (by intro i hi; interval_cases i <;> decide)
    exTab 0
    (by intro i hi; interval_cases i <;> exact ⟨rfl, rfl⟩)
    (by intro i hi; interval_cases i <;> constructor <;> decide)
    exInd (by intro i hi; interval_cases i <;> decide)
    5 (by decide) (by decide)

/-- C1 as stated fails: with data ranges {65535, 65535, 3} (product above 2^32), index
counts {2, 2, 2} and rows {1, 21846}, {0, 43690}, {0, 1}, which satisfy the row
invariant, the flat offsets of the terms 0 and 7 wrap to the same cell 196605
with opposite signs; `encode` of 5 at (0, 0, 0) into a zeroed buffer returns
without fault and `decode` returns 30 / 8 = 15 / 4, not 5. -/
theorem C1_counterexample :
    RandomIndex.new 3 cxDr cxNr = .ok cxE0 ∧
    (∀ i, i < 3 → 2 ≤ cxNr i ∧ (cxTab i).datarange_ = cxDr i ∧ (cxTab i).cols_ = cxNr i ∧
      (cxTab i).Valid ∧ (0 : Nat) < (cxTab i).rows) ∧
    (encode cxE (RIBuf.zero cxE.datanumel_) (fun _ => 0) 5).1 = none ∧
    decode cxE (encode cxE (RIBuf.zero cxE.datanumel_) (fun _ => 0) 5).2.1 (fun _ => 0)
      = .ok (some (15 / 4 : ℚ)) ∧
    (15 / 4 : ℚ) ≠ 5 := by
  refine ⟨rfl, ?_, by decide, ?_, by norm_num⟩
  · intro i hi
    interval_cases i
    · exact ⟨by decide, rfl, rfl, by constructor <;> decide, by decide⟩
    · exact ⟨by decide, rfl, rfl, by constructor <;> decide, by decide⟩
    · exact ⟨by decide, rfl, rfl, by constructor <;> decide, by decide⟩
  · have h : decodeLoop cxE (encode cxE (RIBuf.zero cxE.datanumel_) (fun _ => 0) 5).2.1
        (fun _ => 0) cxE.distnumel_ 0 0 = .ok 30 := rfl
    unfold decode
    rw [h]
    have h8 : cxE.distnumel_ = 8 := rfl
    simp only [h8, fdiv]
    norm_num

theorem RITable.setItem_ok {t t' : RITable} {r c v : Nat} (h : t.setItem r c v = .ok t') :
    r < t.rows_ ∧ c < t.cols_ ∧ t.pos r c < t.cap_ ∧ t.table_ (t.pos r c) < t.datarange_ ∧
    t' = { t with table_ := Function.update t.table_ (t.pos r c) v } := by
  unfold RITable.setItem at h
  split_ifs at h with h1 h2 h3 h4
  simp only [not_not] at h1 h2 h3 h4
  injection h with h
  exact ⟨h1, h2, h3, h4, h.symm⟩

theorem RITable.item_ok {t : RITable} {r c v : Nat} (h : t.item r c = .ok v) :
    r < t.rows_ ∧ c < t.cols_ ∧ t.pos r c < t.cap_ ∧ v < t.datarange_ ∧
    v = t.table_ (t.pos r c) := by
  unfold RITable.item at h
  split_ifs at h with h1 h2 h3 h4
  simp only [not_not] at h1 h2 h3 h4
  injection h with h
  subst h
  exact ⟨h1, h2, h3, h4, rfl⟩

/-- When the search loop of `rows(n)` ends with `k < cols_`, no cell it has
looked at holds `rnd`. -/
theorem RITable.scanLoop_sound (t : RITable) (i rnd j : Nat) (hj : j < t.cols_)
    (hc : t.cols_ + 1 < U32) :
    ∀ (f k0 kf : Nat), k0 ≤ j → t.scanLoop i rnd j f k0 = .ok kf → kf < t.cols_ →
      ∀ k, k0 ≤ k → k < j → ∃ v, t.item i k = .ok v ∧ v ≠ rnd := by
  intro f
  induction f with
  | zero => intro k0 kf _ h; simp [RITable.scanLoop] at h
  | succ f ih =>
    intro k0 kf hk0 h hkf k hk1 hk2
    rw [RITable.scanLoop] at h
    have hlt : k0 < j := by omega
    simp only [hlt, not_true_eq_false, if_false] at h
    cases hit : t.item i k0 with
    | error e => rw [hit] at h; cases h
    | ok v =>
      rw [hit] at h
      simp only [] at h
      by_cases hv : v = rnd
      · simp only [hv, if_true] at h
        have hu : uadd t.cols_ 1 = t.cols_ + 1 := uadd_eq _ _ hc
        rw [hu] at h
        cases f with
        | zero => simp [RITable.scanLoop] at h
        | succ f =>
          rw [RITable.scanLoop] at h
          have : ¬ t.cols_ + 1 < j := by omega
          simp only [this, not_false_eq_true, if_true] at h
          injection h with h
          omega
      · simp only [hv, if_false] at h
        have hu : uadd k0 1 = k0 + 1 := uadd_eq _ _ (by omega)
        rw [hu] at h
        rcases Nat.eq_or_lt_of_le hk1 with he | hl
        · subst he
          exact ⟨v, hit, hv⟩
        · exact ih (k0 + 1) kf (by omega) h hkf k (by omega) hk2

/-- The value the draw loop of `rows(n)` returns is a draw of the generator that
differs from the first `j` cells of row `i`. -/
theorem RITable.drawLoop_sound (t : RITable) (rng : Nat → Nat) (i j : Nat) (hj : j < t.cols_)
    (hc : t.cols_ + 1 < U32) :
    ∀ (f p rnd p' : Nat), t.drawLoop rng i j f p = .ok (rnd, p') →
      p < p' ∧ rnd = toRIIndex (rng (p' - 1)) ∧
      ∀ k, k < j → ∃ v, t.item i k = .ok v ∧ v ≠ rnd := by
  intro f
  induction f with
  | zero => intro p rnd p' h; simp [RITable.drawLoop] at h
  | succ f ih =>
    intro p rnd p' h
    rw [RITable.drawLoop] at h
    cases hs : t.scanLoop i (toRIIndex (rng p)) j (j + 2) 0 with
    | error e => rw [hs] at h; cases h
    | ok k =>
      rw [hs] at h
      simp only [] at h
      by_cases hk : k < t.cols_
      · simp only [hk, if_true] at h
        injection h with h
        injection h with h1 h2
        subst h1 h2
        refine ⟨by omega, by simp, ?_⟩
        intro k' hk'
        exact RITable.scanLoop_sound t i _ j hj hc (j + 2) 0 k (by omega) hs hk k' (by omega) hk'
      · simp only [hk, if_false] at h
        obtain ⟨a1, a2, a3⟩ := ih (p + 1) rnd p' h
        exact ⟨by omega, a2, a3⟩

theorem RITable.SameShape.refl (t : RITable) : t.SameShape t := ⟨rfl, rfl, rfl, rfl⟩

theorem RITable.SameShape.trans {a b c : RITable} (h1 : a.SameShape b) (h2 : b.SameShape c) :
    a.SameShape c :=
  ⟨h2.1.trans h1.1, h2.2.1.trans h1.2.1, h2.2.2.1.trans h1.2.2.1, h2.2.2.2.trans h1.2.2.2⟩

theorem RITable.SameShape.pos_eq {a b : RITable} (h : a.SameShape b) (r c : Nat) :
    b.pos r c = a.pos r c := by
  unfold RITable.pos; rw [h.2.2.1]

/-- The column loop keeps the shape, and every cell it has written lies inside
the heap block. -/
theorem RITable.colLoop_touch (rng : Nat → Nat) (fuel i : Nat) :
    ∀ (k j : Nat) (s s' : RITable × Nat), RITable.colLoop rng fuel i k j s = .ok s' →
      s.1.SameShape s'.1 ∧ ∀ m, m < k → s.1.pos i (j + m) < s.1.cap_ := by
  intro k
  induction k with
  | zero =>
    intro j s s' h
    simp only [RITable.colLoop] at h
    injection h with h
    subst h
    exact ⟨RITable.SameShape.refl _, fun m hm => by omega⟩
  | succ k ih =>
    intro j s s' h
    rw [RITable.colLoop] at h
    cases hd : s.1.drawLoop rng i j fuel s.2 with
    | error e => rw [hd] at h; cases h
    | ok rp =>
      obtain ⟨rnd, p⟩ := rp
      rw [hd] at h
      simp only [] at h
      cases hs : s.1.setItem i j rnd with
      | error e => rw [hs] at h; cases h
      | ok t =>
        rw [hs] at h
        simp only [] at h
        obtain ⟨_, _, hp, _, ht⟩ := RITable.setItem_ok hs
        have hsh : s.1.SameShape t := by rw [ht]; exact ⟨rfl, rfl, rfl, rfl⟩
        obtain ⟨b1, b2⟩ := ih (j + 1) (t, p) s' h
        refine ⟨hsh.trans b1, ?_⟩
        intro m hm
        cases m with
        | zero => simpa using hp
        | succ m =>
          have := b2 m (by omega)
          simp only [] at this
          rw [hsh.pos_eq, hsh.2.2.2] at this
          have e1 : j + (m + 1) = j + 1 + m := by omega
          rw [e1]; exact this

/-- The row loop keeps the shape, and every cell of the rows it has generated
lies inside the heap block. -/
theorem RITable.rowLoop_touch (rng : Nat → Nat) (fuel : Nat) :
    ∀ (k i : Nat) (s s' : RITable × Nat), RITable.rowLoop rng fuel k i s = .ok s' →
      s.1.SameShape s'.1 ∧
      ∀ r, i ≤ r → r < i + k → ∀ c, c < s.1.cols_ → s.1.pos r c < s.1.cap_ := by
  intro k
  induction k with
  | zero =>
    intro i s s' h
    simp only [RITable.rowLoop] at h
    injection h with h
    subst h
    exact ⟨RITable.SameShape.refl _, fun r h1 h2 => by omega⟩
  | succ k ih =>
    intro i s s' h
    rw [RITable.rowLoop] at h
    cases hc : RITable.colLoop rng fuel i s.1.cols_ 0 s with
    | error e => rw [hc] at h; cases h
    | ok s1 =>
      rw [hc] at h
      simp only [] at h
      obtain ⟨a1, a2⟩ := RITable.colLoop_touch rng fuel i _ _ _ _ hc
      obtain ⟨b1, b2⟩ := ih (i + 1) s1 s' h
      refine ⟨a1.trans b1, ?_⟩
      intro r h1 h2 c hc'
      rcases Nat.eq_or_lt_of_le h1 with he | hl
      · subst he
        simpa using a2 c hc'
      · have := b2 r (by omega) (by omega) c (by rw [a1.2.2.1]; exact hc')
        rw [a1.pos_eq, a1.2.2.2] at this
        exact this

theorem RITable.pos_exact (t : RITable) (hN : t.rows_ * t.cols_ < U32) (r c : Nat)
    (hr : r < t.rows_) (hc : c < t.cols_) : t.pos r c = r * t.cols_ + c := by
  have h1 : r * t.cols_ + c < t.rows_ * t.cols_ := by
    calc r * t.cols_ + c < r * t.cols_ + t.cols_ := by omega
      _ = (r + 1) * t.cols_ := by ring
      _ ≤ t.rows_ * t.cols_ := Nat.mul_le_mul_right _ hr
  unfold RITable.pos
  rw [umul_eq _ _ (by omega), uadd_eq _ _ (by omega)]

theorem toRIIndex_lt (x d : Nat) (hd : 0 < d) (hx : x ≤ d - 1) : toRIIndex x < d := by
  unfold toRIIndex
  have := Nat.mod_le x 65536
  omega

/-- The column loop extends the row invariant to the cells it writes and leaves
all other rows alone. -/
theorem RITable.colLoop_sound (rng : Nat → Nat) (fuel i : Nat) :
    ∀ (k j : Nat) (s s' : RITable × Nat), i < s.1.rows_ → j + k ≤ s.1.cols_ →
      s.1.rows_ * s.1.cols_ < U32 → s.1.cols_ < s.1.datarange_ →
      s.1.datarange_ ≤ MAX_RIIndex → RITable.colLoop rng fuel i k j s = .ok s' →
      ((∀ q, rng q ≤ s.1.datarange_ - 1) → s.1.RowOK i j → s'.1.RowOK i (j + k)) ∧
      (∀ q, (q < i * s.1.cols_ + j ∨ i * s.1.cols_ + j + k ≤ q) →
        s'.1.table_ q = s.1.table_ q) ∧
      s.2 ≤ s'.2 := by
  intro k
  induction k with
  | zero =>
    intro j s s' _ _ _ _ _ h
    simp only [RITable.colLoop] at h
    injection h with h
    subst h
    exact ⟨fun _ hrow => hrow, fun q _ => rfl, Nat.le_refl _⟩
  | succ k ih =>
    intro j s s' hi hjk hN hcd hd h
    rw [RITable.colLoop] at h
    cases hdl : s.1.drawLoop rng i j fuel s.2 with
    | error e => rw [hdl] at h; cases h
    | ok rp =>
      obtain ⟨rnd, p⟩ := rp
      rw [hdl] at h
      simp only [] at h
      cases hs : s.1.setItem i j rnd with
      | error e => rw [hs] at h; cases h
      | ok t =>
        rw [hs] at h
        simp only [] at h
        have hjc : j < s.1.cols_ := by omega
        have hM : s.1.cols_ + 1 < U32 := by
          simp only [MAX_RIIndex] at hd
          simp only [U32]; omega
        obtain ⟨d1, d2, d3⟩ := RITable.drawLoop_sound s.1 rng i j hjc hM fuel s.2 rnd p hdl
        obtain ⟨_, _, _, _, ht⟩ := RITable.setItem_ok hs
        have hpj : s.1.pos i j = i * s.1.cols_ + j := RITable.pos_exact _ hN i j hi hjc
        rw [hpj] at ht
        have hfresh : ∀ c, c < j → s.1.table_ (i * s.1.cols_ + c) ≠ rnd := by
          intro c hc
          obtain ⟨v, hv1, hv2⟩ := d3 c hc
          obtain ⟨_, _, _, _, hv⟩ := RITable.item_ok hv1
          rw [RITable.pos_exact _ hN i c hi (by omega)] at hv
          rw [← hv]; exact hv2
        subst ht
        obtain ⟨b1, b2, b3⟩ := ih (j + 1)
          ({ s.1 with table_ := Function.update s.1.table_ (i * s.1.cols_ + j) rnd }, p) s'
          hi (by simp only []; omega) hN hcd hd h
        refine ⟨?_, ?_, ?_⟩
        · intro hdraw hrow
          have hrnd : rnd < s.1.datarange_ := by
            rw [d2]; exact toRIIndex_lt _ _ (by omega) (hdraw _)
          have hrow1 : RITable.RowOK
              { s.1 with table_ := Function.update s.1.table_ (i * s.1.cols_ + j) rnd }
              i (j + 1) := by
            constructor
            · intro c hc
              show Function.update s.1.table_ (i * s.1.cols_ + j) rnd (i * s.1.cols_ + c)
                < s.1.datarange_
              rcases Nat.eq_or_lt_of_le (Nat.le_of_lt_succ hc) with he | hl
              · subst he; simpa using hrnd
              · rw [Function.update_noteq (by omega)]
                exact hrow.1 c hl
            · intro c hc c' hc' heq
              change Function.update s.1.table_ (i * s.1.cols_ + j) rnd (i * s.1.cols_ + c)
                = Function.update s.1.table_ (i * s.1.cols_ + j) rnd (i * s.1.cols_ + c') at heq
              rcases Nat.eq_or_lt_of_le (Nat.le_of_lt_succ hc) with he | hl
              · rcases Nat.eq_or_lt_of_le (Nat.le_of_lt_succ hc') with he' | hl'
                · omega
                · subst he
                  rw [Function.update_same, Function.update_noteq (by omega)] at heq
                  exact absurd heq.symm (hfresh c' hl')
              · rcases Nat.eq_or_lt_of_le (Nat.le_of_lt_succ hc') with he' | hl'
                · subst he'
                  rw [Function.update_same, Function.update_noteq (by omega)] at heq
                  exact absurd heq (hfresh c hl)
                · rw [Function.update_noteq (by omega), Function.update_noteq (by omega)] at heq
                  exact hrow.2 c hl c' hl' heq
          have e1 : j + (k + 1) = j + 1 + k := by omega
          rw [e1]; exact b1 hdraw hrow1
        · intro q hq
          rw [b2 q (by simp only []; omega)]
          show Function.update s.1.table_ (i * s.1.cols_ + j) rnd q = s.1.table_ q
          rw [Function.update_noteq (by omega)]
        · simp only [] at b3
          omega

theorem RITable.RowOK.transfer {a b : RITable} {r j : Nat} (hs : a.SameShape b)
    (heq : ∀ c, c < j → b.table_ (r * a.cols_ + c) = a.table_ (r * a.cols_ + c))
    (h : a.RowOK r j) : b.RowOK r j := by
  unfold RITable.RowOK at h ⊢
  rw [hs.1, hs.2.2.1]
  constructor
  · intro c hc; rw [heq c hc]; exact h.1 c hc
  · intro c hc c' hc' he
    rw [heq c hc, heq c' hc'] at he
    exact h.2 c hc c' hc' he

/-- The row loop establishes the row invariant for every row it generates and
leaves the rows before them alone. -/
theorem RITable.rowLoop_sound (rng : Nat → Nat) (fuel : Nat) :
    ∀ (k i : Nat) (s s' : RITable × Nat), i + k = s.1.rows_ →
      s.1.rows_ * s.1.cols_ < U32 → s.1.cols_ < s.1.datarange_ →
      s.1.datarange_ ≤ MAX_RIIndex → RITable.rowLoop rng fuel k i s = .ok s' →
      ((∀ q, rng q ≤ s.1.datarange_ - 1) → (∀ r, r < i → s.1.RowOK r s.1.cols_) →
        ∀ r, r < s.1.rows_ → s'.1.RowOK r s.1.cols_) ∧
      (∀ q, (q < i * s.1.cols_ ∨ (i + k) * s.1.cols_ ≤ q) → s'.1.table_ q = s.1.table_ q) ∧
      s.2 ≤ s'.2 := by
  intro k
  induction k with
  | zero =>
    intro i s s' hik _ _ _ h
    simp only [RITable.rowLoop] at h
    injection h with h
    subst h
    exact ⟨fun _ hrows r hr => hrows r (by omega), fun q _ => rfl, Nat.le_refl _⟩
  | succ k ih =>
    intro i s s' hik hN hcd hd h
    rw [RITable.rowLoop] at h
    cases hc : RITable.colLoop rng fuel i s.1.cols_ 0 s with
    | error e => rw [hc] at h; cases h
    | ok s1 =>
      rw [hc] at h
      simp only [] at h
      obtain ⟨sh, _⟩ := RITable.colLoop_touch rng fuel i _ _ _ _ hc
      obtain ⟨a1, a2, a3⟩ := RITable.colLoop_sound rng fuel i s.1.cols_ 0 s s1 (by omega)
        (by omega) hN hcd hd hc
      simp only [Nat.zero_add] at a1
      obtain ⟨b1, b2, b3⟩ := ih (i + 1) s1 s' (by rw [sh.2.1]; omega)
        (by rw [sh.2.1, sh.2.2.1]; exact hN) (by rw [sh.1, sh.2.2.1]; exact hcd)
        (by rw [sh.1]; exact hd) h
      rw [sh.1, sh.2.1, sh.2.2.1] at b1
      rw [sh.2.2.1] at b2
      refine ⟨?_, ?_, by omega⟩
      · intro hdraw hrows
        have a1' := a1 hdraw ⟨fun c hc => by omega, fun c hc => by omega⟩
        have hrows1 : ∀ r, r < i + 1 → s1.1.RowOK r s.1.cols_ := by
          intro r hr
          rcases Nat.eq_or_lt_of_le (Nat.le_of_lt_succ hr) with he | hl
          · subst he; exact a1'
          · refine RITable.RowOK.transfer sh ?_ (hrows r hl)
            intro c hc'
            apply a2
            left
            simp only [Nat.add_zero]
            calc r * s.1.cols_ + c < r * s.1.cols_ + s.1.cols_ := by omega
              _ = (r + 1) * s.1.cols_ := by ring
              _ ≤ i * s.1.cols_ := Nat.mul_le_mul_right _ hl
        exact b1 hdraw hrows1
      · intro q hq
        have h1 : (i + 1) * s.1.cols_ = i * s.1.cols_ + s.1.cols_ := by ring
        have h2 : (i + 1 + k) * s.1.cols_ = (i + (k + 1)) * s.1.cols_ := by
          congr 1; omega
        have h3 : (i + 1) * s.1.cols_ ≤ (i + 1 + k) * s.1.cols_ :=
          Nat.mul_le_mul_right _ (by omega)
        rw [b2 q (by omega)]
        exact a2 q (by omega)

/-- A growth that returns did not wrap the size of the heap block. -/
theorem RITable.grow_fits (cols cap i0 n : Nat) (h0 : i0 * cols < U32)
    (hcap : cap = umul n cols)
    (htouch : ∀ r, i0 ≤ r → r < n → ∀ c, c < cols → uadd (umul r cols) c < cap) :
    n * cols < U32 := by
  by_contra hge
  have hge' : U32 ≤ n * cols := by omega
  have hcpos : 0 < cols := by
    rcases Nat.eq_zero_or_pos cols with h | h
    · subst h; simp [U32] at hge'
    · exact h
  have hU : U32 - 1 < U32 := by simp [U32]
  have hi1 : i0 ≤ (U32 - 1) / cols := (Nat.le_div_iff_mul_le hcpos).2 (by omega)
  have hi2 : (U32 - 1) / cols < n := (Nat.div_lt_iff_lt_mul hcpos).2 (by omega)
  have hj : (U32 - 1) % cols < cols := Nat.mod_lt _ hcpos
  have hle : (U32 - 1) / cols * cols ≤ U32 - 1 := Nat.div_mul_le_self _ _
  have hsum : (U32 - 1) / cols * cols + (U32 - 1) % cols = U32 - 1 := by
    have := Nat.div_add_mod (U32 - 1) cols
    have hc : cols * ((U32 - 1) / cols) = (U32 - 1) / cols * cols := Nat.mul_comm _ _
    omega
  have := htouch _ hi1 hi2 _ hj
  rw [umul_eq _ _ (by omega), uadd_eq _ _ (by omega), hsum, hcap] at this
  have hlt : umul n cols < U32 := Nat.mod_lt _ (by simp [U32])
  omega

theorem RITable.valid_iff (t : RITable) :
    t.Valid ↔ t.rows_ * t.cols_ < U32 ∧ t.rows_ * t.cols_ ≤ t.cap_ ∧
      ∀ r, r < t.rows_ → t.RowOK r t.cols_ := by
  constructor
  · intro h
    exact ⟨h.fits, h.alloc, fun r hr => ⟨h.below r hr, h.distinct r hr⟩⟩
  · intro h
    exact
      { fits := h.1
        alloc := h.2.1
        below := fun r hr => (h.2.2 r hr).1
        distinct := fun r hr => (h.2.2 r hr).2 }

/-- What a returning call of `rows(n)` leaves behind. -/
theorem RITable.grow_sound (t : RITable) (hfit : t.rows_ * t.cols_ < U32)
    (halloc : t.rows_ * t.cols_ ≤ t.cap_) (hcd : t.cols_ < t.datarange_)
    (hd : t.datarange_ ≤ MAX_RIIndex) (n : Nat) (heap rng : Nat → Nat) (fuel p : Nat)
    (t' : RITable) (p' : Nat) (h : t.grow n heap rng fuel p = .ok (t', p')) :
    t'.rows_ = max t.rows_ n ∧ t'.cols_ = t.cols_ ∧ t'.datarange_ = t.datarange_ ∧
    t'.rows_ * t'.cols_ < U32 ∧ t'.rows_ * t'.cols_ ≤ t'.cap_ ∧
    (∀ q, q < t.rows_ * t.cols_ → t'.table_ q = t.table_ q) ∧ p ≤ p' ∧
    (n ≤ t.rows_ → t' = t ∧ p' = p) ∧
    ((∀ q, rng q ≤ t.datarange_ - 1) → (∀ r, r < t.rows_ → t.RowOK r t.cols_) →
      ∀ r, r < t'.rows_ → t'.RowOK r t'.cols_) := by
  unfold RITable.grow at h
  by_cases hn : n > t.rows_
  · simp only [hn, if_true] at h
    obtain ⟨sh, touch⟩ := RITable.rowLoop_touch rng fuel _ _ _ _ h
    simp only [] at sh touch
    obtain ⟨s1, s2, s3, s4⟩ := sh
    simp only [] at s1 s2 s3 s4
    have hN : n * t.cols_ < U32 := by
      apply RITable.grow_fits t.cols_ (umul n t.cols_) t.rows_ n hfit rfl
      intro r h1 h2 c hc
      exact touch r h1 (by omega) c hc
    obtain ⟨a1, a2, a3⟩ := RITable.rowLoop_sound rng fuel (n - t.rows_) t.rows_ _ _
      (by simp only []; omega) hN hcd hd h
    simp only [] at a1 a2 a3
    have hmax : max t.rows_ n = n := Nat.max_eq_right (by omega)
    refine ⟨by rw [s2, hmax], s3, s1, by rw [s2, s3]; exact hN, ?_, ?_, a3, ?_, ?_⟩
    · rw [s2, s3, s4, umul_eq _ _ hN]
    · intro q hq
      rw [a2 q (Or.inl hq)]
      have : q < t.cap_ := by omega
      simp [this]
    · intro hle; omega
    · intro hdraw hrows
      rw [s2, s3]
      apply a1 hdraw
      intro r hr
      have hr' := hrows r hr
      have hlt : ∀ c, c < t.cols_ → r * t.cols_ + c < t.cap_ := by
        intro c hc
        have : r * t.cols_ + c < t.rows_ * t.cols_ := by
          calc r * t.cols_ + c < r * t.cols_ + t.cols_ := by omega
            _ = (r + 1) * t.cols_ := by ring
            _ ≤ t.rows_ * t.cols_ := Nat.mul_le_mul_right _ hr
        omega
      constructor
      · intro c hc
        show (if r * t.cols_ + c < t.cap_ then t.table_ (r * t.cols_ + c)
          else heap (r * t.cols_ + c)) < t.datarange_
        rw [if_pos (hlt c hc)]
        exact hr'.1 c hc
      · intro c hc c' hc' he
        change (if r * t.cols_ + c < t.cap_ then t.table_ (r * t.cols_ + c)
            else heap (r * t.cols_ + c))
          = (if r * t.cols_ + c' < t.cap_ then t.table_ (r * t.cols_ + c')
            else heap (r * t.cols_ + c')) at he
        rw [if_pos (hlt c hc), if_pos (hlt c' hc')] at he
        exact hr'.2 c hc c' hc' he
  · simp only [hn, if_false] at h
    injection h with h
    injection h with h1 h2
    subst h1 h2
    have hmax : max t.rows_ n = t.rows_ := Nat.max_eq_left (by omega)
    exact ⟨hmax.symm, rfl, rfl, hfit, halloc, fun q _ => rfl, Nat.le_refl _,
      fun _ => ⟨rfl, rfl⟩, fun _ hrows => hrows⟩

/-- Every table state the code produces is well formed and keeps the
constructed shape. -/
theorem RITable.grown_valid {d c : Nat} {t : RITable} (h : RITable.Grown d c t) :
    t.Valid ∧ t.cols_ = c ∧ t.datarange_ = d ∧ c < d ∧ d ≤ MAX_RIIndex := by
  induction h with
  | init t hnew =>
    obtain ⟨a1, _, a3, a4, a5, a6, a7⟩ := RITable.new_ok hnew
    refine ⟨(RITable.valid_iff t).2 ⟨?_, ?_, ?_⟩, a5, a4, a3, a1⟩
    · rw [a6]; simp [U32]
    · rw [a6]; simp
    · intro r hr; omega
  | step t t' n heap rng fuel p p' _ hdraw hg ih =>
    obtain ⟨hv, h1, h2, h3, h4⟩ := ih
    obtain ⟨hf, ha, hrows⟩ := (RITable.valid_iff t).1 hv
    obtain ⟨_, b2, b3, b4, b5, _, _, _, b9⟩ := RITable.grow_sound t hf ha
      (by rw [h1, h2]; exact h3) (by rw [h2]; exact h4) n heap rng fuel p t' p' hg
    refine ⟨(RITable.valid_iff t').2 ⟨b4, b5, b9 (by rw [h2]; exact hdraw) hrows⟩,
      by rw [b2, h1], by rw [b3, h2], h3, h4⟩

/-- C2: in every table state the code produces for `(datarange, cols) = (d, c)` with
generator draws in `[0, d-1]`, whenever `rows(n)` has returned, every cell
`(r, c1)` with `r < rows` and `c1 < cols = c` can be read with `item`, holds a
value below `d`, and no other cell of the same row holds the same value. -/
theorem C2_row_unique_in_range (d c : Nat) (t : RITable) (h : RITable.Grown d c t) :
    t.cols = c ∧ t.datarange = d ∧
    ∀ r, r < t.rows → ∀ c1, c1 < t.cols →
      ∃ v, t.item r c1 = .ok v ∧ v < d ∧
        ∀ c2, c2 < t.cols → t.item r c2 = .ok v → c2 = c1 := by
  obtain ⟨hv, h1, h2, _, _⟩ := RITable.grown_valid h
  refine ⟨h1, h2, ?_⟩
  intro r hr c1 hc1
  obtain ⟨e1, e2⟩ := hv.item_eq r c1 hr hc1
  refine ⟨_, e1, by rw [← h2]; exact e2, ?_⟩
  intro c2 hc2 e3
  obtain ⟨e4, _⟩ := hv.item_eq r c2 hr hc2
  rw [e4] at e3
  injection e3 with e3
  exact hv.distinct r hr c2 hc2 c1 hc1 e3

/-- C2 witness: `datarange = 3`, `cols = 2 = datarange - 1`, two rows generated from the
stream 0, 0, 1, 1, 2, 2, ... (the second draw is rejected). -/
theorem C2_row_unique_in_range_witness :
    gxT1.1.cols = 2 ∧ gxT1.1.datarange = 3 ∧
    ∀ r, r < gxT1.1.rows → ∀ c1, c1 < gxT1.1.cols →
      ∃ v, gxT1.1.item r c1 = .ok v ∧ v < 3 ∧
        ∀ c2, c2 < gxT1.1.cols → gxT1.1.item r c2 = .ok v → c2 = c1 :=
  C2_row_unique_in_range 3 2 gxT1.1
    (RITable.Grown.step gxT0 gxT1.1 2 (fun _ => 0) gxRng 2 0 gxT1.2
      (RITable.Grown.init gxT0 rfl)
      (by intro q; simp only [gxRng]; omega) rfl)

theorem clamp_inRange (v : Int) (h : inRange v) : clamp v = v := by
  unfold inRange MIN_RIData MAX_RIData at h
  unfold clamp MIN_RIData MAX_RIData
  omega

theorem clamp_outside (v : Int) (h : ¬ inRange v) :
    (v < MIN_RIData ∧ clamp v = MIN_RIData) ∨ (MAX_RIData < v ∧ clamp v = MAX_RIData) := by
  unfold inRange MIN_RIData MAX_RIData at h
  unfold clamp MIN_RIData MAX_RIData
  omega

/-- The saturating store writes the clamped sum and counts one event when the
sum is out of range. -/
theorem store_eq (st : RIBuf × Nat) (X : Nat) (sw : Int) (hX : X < st.1.numel) :
    store st X sw = .ok (st.1.write X (clamp (st.1.cell X + sw)),
      st.2 + (if inRange (st.1.cell X + sw) then 0 else 1)) := by
  unfold store
  simp only [hX, not_true_eq_false, if_false]
  by_cases h : inRange (st.1.cell X + sw)
  · have h' : MIN_RIData ≤ st.1.cell X + sw ∧ st.1.cell X + sw ≤ MAX_RIData := h
    simp only [h', and_self, if_true, h, clamp_inRange _ h, Nat.add_zero]
  · have h' : ¬ (MIN_RIData ≤ st.1.cell X + sw ∧ st.1.cell X + sw ≤ MAX_RIData) := h
    simp only [h', if_false, h]
    rcases clamp_outside _ h with ⟨a, b⟩ | ⟨a, b⟩
    · simp only [a, if_true, b]
    · have : ¬ st.1.cell X + sw < MIN_RIData := by
        unfold MIN_RIData MAX_RIData at *; omega
      simp only [this, if_false, b]

theorem encodeTerm_eq (e : RandomIndex) (ind : Nat → Nat) (w : Int) (st : RIBuf × Nat)
    (j X : Nat) (sw : Int) (ht : term e ind w j = .ok (X, sw)) (hX : X < st.1.numel) :
    encodeTerm e ind w st j = .ok (st.1.write X (clamp (st.1.cell X + sw)),
      st.2 + (if inRange (st.1.cell X + sw) then 0 else 1)) := by
  unfold encodeTerm
  rw [ht]
  exact store_eq st X sw hX

theorem encodeTerm_ok (e : RandomIndex) (ind : Nat → Nat) (w : Int) (st st' : RIBuf × Nat)
    (j : Nat) (h : encodeTerm e ind w st j = .ok st') :
    ∃ X sw, term e ind w j = .ok (X, sw) ∧ X < st.1.numel := by
  unfold encodeTerm at h
  cases htm : term e ind w j with
  | error f => rw [htm] at h; cases h
  | ok p =>
    rw [htm] at h
    simp only [] at h
    refine ⟨p.1, p.2, rfl, ?_⟩
    by_contra hX
    simp [store, hX] at h

/-- In the wrap-free setting, with a buffer of `datanumel_` elements, the `j`
loop of `encode` returns without fault for every weight. -/
theorem encodeLoop_total {dims : Nat} {dr nr : Nat → Nat} {e : RandomIndex} {ind : Nat → Nat}
    (hr : Ready dims dr nr e ind) (w : Int) :
    ∀ (k j : Nat) (st : RIBuf × Nat), j + k ≤ e.distnumel_ → st.1.numel = e.datanumel_ →
      (encodeLoop e ind w k j st).1 = none := by
  intro k
  induction k with
  | zero => intro j st _ _; rfl
  | succ k ih =>
    intro j st hjk hn
    have hdist := hr.built.distnumel_exact hr.fit
    have hdata := hr.built.datanumel_exact hr.fit
    obtain ⟨X, sw, h1, h2⟩ := termLoop_ok hr dims 0 j 0 w (by omega)
      (by rw [← hdist]; omega) (by simp [prodFrom])
    have htm : term e ind w j = .ok (X, sw) := by
      unfold term; rw [hr.built.dims_eq]; exact h1
    rw [encodeLoop, encodeTerm_eq e ind w st j X sw htm (by rw [hn, hdata]; exact h2)]
    exact ih (j + 1) _ (by omega) hn

/-- In the wrap-free setting distinct terms of an `encode` call address distinct
cells, for every weight. -/
theorem target_inj {dims : Nat} {dr nr : Nat → Nat} {e : RandomIndex} {ind : Nat → Nat}
    (hr : Ready dims dr nr e ind) (w : Int) (j j' : Nat) (hj : j < e.distnumel_)
    (hj' : j' < e.distnumel_) (h : target e ind w j = target e ind w j') : j = j' := by
  have hd := hr.built.dims_eq
  have hdist := hr.built.distnumel_exact hr.fit
  obtain ⟨X, a, h1, _⟩ := termLoop_ok hr dims 0 j 0 w (by omega) (by rw [← hdist]; exact hj)
    (by simp [prodFrom])
  obtain ⟨X', b, h2, _⟩ := termLoop_ok hr dims 0 j' 0 w (by omega)
    (by rw [← hdist]; exact hj') (by simp [prodFrom])
  have t1 : target e ind w j = X := by unfold target term; rw [hd, h1]
  have t2 : target e ind w j' = X' := by unfold target term; rw [hd, h2]
  rw [t1, t2] at h
  subst h
  exact (termLoop_inj hr dims 0 j j' 0 0 w w X a b (by omega) (by rw [← hdist]; exact hj)
    (by rw [← hdist]; exact hj') (by simp [prodFrom]) (by simp [prodFrom]) h1 h2).1

theorem exE_ready : Ready 2 exDr exNr exE exInd :=
  @ready_with 2 exDr exNr exE0 rfl (by decide) exTab 0
    (by intro i hi; interval_cases i <;> exact ⟨rfl, rfl⟩)
    (by intro i hi; interval_cases i <;> constructor <;> decide)
    exInd (by intro i hi; interval_cases i <;> decide)

theorem RITable.item_of (t : RITable) (hN : t.rows_ * t.cols_ < U32)
    (ha : t.rows_ * t.cols_ ≤ t.cap_) (r c : Nat) (hr : r < t.rows_) (hc : c < t.cols_)
    (hb : t.table_ (r * t.cols_ + c) < t.datarange_) :
    t.item r c = .ok (t.table_ (r * t.cols_ + c)) := by
  have h1 : r * t.cols_ + c < t.rows_ * t.cols_ := by
    calc r * t.cols_ + c < r * t.cols_ + t.cols_ := by omega
      _ = (r + 1) * t.cols_ := by ring
      _ ≤ t.rows_ * t.cols_ := Nat.mul_le_mul_right _ hr
  unfold RITable.item
  rw [RITable.pos_exact t hN r c hr hc]
  simp [hr, hc, hb]
  omega

theorem setrange_ok {e e' : RandomIndex} {dim n : Nat} {heap rng : Nat → Nat}
    {fuel p v p' : Nat} (h : setrange e dim n heap rng fuel p = .ok (v, e', p')) :
    dim < e.dims_ ∧ ∃ t, (e.ritables_ dim).grow n heap rng fuel p = .ok (t, p') ∧
      v = t.rows_ ∧ e' = { e with ritables_ := Function.update e.ritables_ dim t } := by
  unfold setrange at h
  split_ifs at h with h1
  simp only [not_not] at h1
  cases hg : (e.ritables_ dim).grow n heap rng fuel p with
  | error f => rw [hg] at h; cases h
  | ok s =>
    obtain ⟨t, p1⟩ := s
    rw [hg] at h
    simp only [] at h
    injection h with h
    injection h with h2 h3
    injection h3 with h3 h4
    subst h4
    exact ⟨h1, t, rfl, h2.symm, h3.symm⟩

/-- C4: whenever `setrange(dim, n)` returns on an engine whose table `dim` is a state
the code produces, the row count of table `dim` has not decreased, every cell of
every previously generated row reads as before, and the tables of all other
dimensions are unchanged; when `n <= rows` the call returns, the table is
unchanged and no random number has been drawn. -/
theorem C4_monotonic_growth (e : RandomIndex) (d c dim n : Nat) (heap rng : Nat → Nat)
    (fuel p : Nat) (hg : RITable.Grown d c (e.ritables_ dim)) :
    (∀ (v : Nat) (e' : RandomIndex) (p' : Nat),
      setrange e dim n heap rng fuel p = .ok (v, e', p') →
        (e.ritables_ dim).rows ≤ (e'.ritables_ dim).rows ∧
        (∀ r, r < (e.ritables_ dim).rows → ∀ col, col < (e.ritables_ dim).cols →
          (e'.ritables_ dim).item r col = (e.ritables_ dim).item r col) ∧
        (∀ i, i ≠ dim → e'.ritables_ i = e.ritables_ i) ∧
        (n ≤ (e.ritables_ dim).rows → e'.ritables_ dim = e.ritables_ dim ∧ p' = p)) ∧
    (dim < e.dims_ → n ≤ (e.ritables_ dim).rows →
      setrange e dim n heap rng fuel p = .ok ((e.ritables_ dim).rows, e, p)) := by
  obtain ⟨hv, h1, h2, h3, h4⟩ := RITable.grown_valid hg
  constructor
  · intro v e' p' h
    obtain ⟨_, t, hgr, _, he⟩ := setrange_ok h
    obtain ⟨b1, b2, b3, b4, b5, b6, _, b8, _⟩ := RITable.grow_sound (e.ritables_ dim)
      hv.fits hv.alloc (by rw [h1, h2]; exact h3) (by rw [h2]; exact h4)
      n heap rng fuel p t p' hgr
    have ht : e'.ritables_ dim = t := by rw [he]; simp
    rw [ht]
    refine ⟨?_, ?_, ?_, b8⟩
    · show (e.ritables_ dim).rows_ ≤ t.rows_
      rw [b1]; exact Nat.le_max_left _ _
    · intro r hr col hcol
      have hr' : r < (e.ritables_ dim).rows_ := hr
      have hcol' : col < (e.ritables_ dim).cols_ := hcol
      obtain ⟨i1, i2⟩ := hv.item_eq r col hr' hcol'
      have hq : r * (e.ritables_ dim).cols_ + col
          < (e.ritables_ dim).rows_ * (e.ritables_ dim).cols_ := by
        calc r * (e.ritables_ dim).cols_ + col
            < r * (e.ritables_ dim).cols_ + (e.ritables_ dim).cols_ := by omega
          _ = (r + 1) * (e.ritables_ dim).cols_ := by ring
          _ ≤ (e.ritables_ dim).rows_ * (e.ritables_ dim).cols_ :=
            Nat.mul_le_mul_right _ hr'
      have hnew := RITable.item_of t b4 b5 r col
        (by rw [b1]; exact Nat.lt_of_lt_of_le hr' (Nat.le_max_left _ _))
        (by rw [b2]; exact hcol')
        (by rw [b2, b3, b6 _ hq]; exact i2)
      rw [hnew, i1, b2, b6 _ hq]
    · intro i hi
      rw [he]
      simp [Function.update_noteq hi]
  · intro hdim hn
    unfold setrange
    simp only [hdim, not_true_eq_false, if_false]
    have hgr : (e.ritables_ dim).grow n heap rng fuel p = .ok (e.ritables_ dim, p) := by
      unfold RITable.grow
      have : ¬ n > (e.ritables_ dim).rows_ := by
        have : n ≤ (e.ritables_ dim).rows_ := hn
        omega
      simp only [this, if_false]
    rw [hgr]
    simp only [Function.update_eq_self]
    rfl

theorem gxT1_grown : RITable.Grown 3 2 gxT1.1 :=
  RITable.Grown.step gxT0 gxT1.1 2 (fun _ => 0) gxRng 2 0 gxT1.2
    (RITable.Grown.init gxT0 rfl) (by intro q; simp only [gxRng]; omega) rfl

/-- C4 witness: growing the one-dimensional engine `gxE` from 2 to 3 rows keeps the
row count from shrinking and the four cells of the first two rows readable
with their old values. -/
theorem C4_monotonic_growth_witness :
    (gxE.ritables_ 0).rows ≤ (gxS.2.1.ritables_ 0).rows ∧
    (∀ r, r < (gxE.ritables_ 0).rows → ∀ col, col < (gxE.ritables_ 0).cols →
      (gxS.2.1.ritables_ 0).item r col = (gxE.ritables_ 0).item r col) ∧
    (∀ i, i ≠ 0 → gxS.2.1.ritables_ i = gxE.ritables_ i) ∧
    (3 ≤ (gxE.ritables_ 0).rows → gxS.2.1.ritables_ 0 = gxE.ritables_ 0 ∧ gxS.2.2 = 5) :=
  (C4_monotonic_growth gxE 3 2 0 3 (fun _ => 0) gxRng 2 5 gxT1_grown).1
    gxS.1 gxS.2.1 gxS.2.2 rfl

/-- With the same coordinate on both sides the two offsets of a term of `cosa`
coincide. -/
theorem cosaTermLoop_self (e : RandomIndex) (c : Nat → Nat) :
    ∀ (k i temp D a b : Nat), cosaTermLoop e c c k i temp D D = .ok (a, b) → a = b := by
  intro k
  induction k with
  | zero =>
    intro i temp D a b h
    simp only [cosaTermLoop] at h
    injection h with h
    injection h with h1 h2
    omega
  | succ k ih =>
    intro i temp D a b h
    rw [cosaTermLoop] at h
    by_cases hz : cosaUnroll e c i = 0
    · simp [hz] at h
    · simp only [hz, if_false] at h
      by_cases hA : c i = Average
      · simp only [hA, not_true_eq_false, if_false] at h
        exact ih _ _ _ a b h
      · simp only [hA, not_false_eq_true, if_true] at h
        cases hit : (e.ritables_ i).item (c i) (temp / cosaUnroll e c i) with
        | error f => rw [hit] at h; cases h
        | ok r =>
          rw [hit] at h
          simp only [] at h
          exact ih _ _ _ a b h

/-- With the same buffer and coordinate on both sides the three sums of `cosa`
stay equal, and they do not decrease. -/
theorem cosaLoop_self (e : RandomIndex) (d : RIBuf) (c : Nat → Nat) :
    ∀ (k j : Nat) (acc s : Int × Int × Int), acc.1 = acc.2.1 → acc.2.1 = acc.2.2 →
      cosaLoop e d c d c k j acc = .ok s →
      s.1 = s.2.1 ∧ s.2.1 = s.2.2 ∧ acc.1 ≤ s.1 := by
  intro k
  induction k with
  | zero =>
    intro j acc s h1 h2 h
    simp only [cosaLoop] at h
    injection h with h
    subst h
    exact ⟨h1, h2, le_refl _⟩
  | succ k ih =>
    intro j acc s h1 h2 h
    rw [cosaLoop] at h
    cases ht : cosaTermLoop e c c e.dims_ 0 j 0 0 with
    | error f => rw [ht] at h; cases h
    | ok p =>
      obtain ⟨a, b⟩ := p
      rw [ht] at h
      simp only [] at h
      have hab := cosaTermLoop_self e c _ _ _ _ a b ht
      subst hab
      by_cases hlt : a < d.numel
      · simp only [hlt, not_true_eq_false, if_false] at h
        obtain ⟨r1, r2, r3⟩ := ih (j + 1) _ s (by simp only []; rw [h1])
          (by simp only []; rw [h2]) h
        simp only [] at r3
        have : 0 ≤ d.cell a * d.cell a := mul_self_nonneg _
        exact ⟨r1, r2, by omega⟩
      · simp [hlt] at h

/-- Whenever `cosa(d, c, d, c)` has accumulated its sums, they are equal, and when
the norm is nonzero the call returns their quotient, whose value is 1. -/
theorem cosa_self_sums (e : RandomIndex) (d : RIBuf) (c : Nat → Nat)
    (s : Int × Int × Int) (h : cosaSums e d c d c = .ok s) :
    s.1 = s.2.1 ∧ s.2.1 = s.2.2 ∧
    (s.2.1 ≠ 0 →
      cosa e d c d c = .ok (.quot s.1 s.2.1 s.2.2) ∧
      (s.1 : ℝ) / Real.sqrt ((s.2.1 : ℝ) * (s.2.2 : ℝ)) = 1) := by
  have hs : s.1 = s.2.1 ∧ s.2.1 = s.2.2 ∧ (0 : Int) ≤ s.1 := by
    unfold cosaSums at h
    cases hset : cosaSetup e c c e.dims_ 0 1 with
    | error f => rw [hset] at h; cases h
    | ok dnumel =>
      rw [hset] at h
      simp only [] at h
      exact cosaLoop_self e d c dnumel 0 (0, 0, 0) s rfl rfl h
  obtain ⟨h1, h2, h3⟩ := hs
  refine ⟨h1, h2, ?_⟩
  intro hne
  constructor
  · unfold cosa
    rw [h]
    simp only [cosaQuot]
    have : ¬ s.2.1 * s.2.2 = 0 := by
      rw [← h2]
      exact mul_ne_zero hne hne
    simp only [this, if_false]
  · rw [← h2, ← h1]
    have hpos : (0 : ℝ) < (s.1 : ℝ) := by
      have : (0 : Int) < s.1 := by
        rcases lt_or_eq_of_le h3 with hlt | heq
        · exact hlt
        · exact absurd (h1 ▸ heq.symm) hne
      exact_mod_cast this
    rw [Real.sqrt_mul_self (le_of_lt hpos)]
    exact div_self (ne_of_gt hpos)


/-- The multiplication loop computes the product modulo `2^32`. -/
theorem unrollLoop_mod (f : Nat → Nat) :
    ∀ (k j acc : Nat), acc < U32 → unrollLoop f k j acc = (acc * prodFrom f j k) % U32 := by
  intro k
  induction k with
  | zero =>
    intro j acc h
    simp only [unrollLoop, prodFrom, Nat.mul_one]
    exact (Nat.mod_eq_of_lt h).symm
  | succ k ih =>
    intro j acc _
    have hU : 0 < U32 := by simp [U32]
    rw [unrollLoop, ih (j + 1) (umul acc (f j)) (Nat.mod_lt _ hU)]
    show (acc * f j % U32 * prodFrom f (j + 1) k) % U32
      = (acc * (f j * prodFrom f (j + 1) k)) % U32
    rw [Nat.mul_mod, Nat.mod_mod, ← Nat.mul_mod, Nat.mul_assoc]

theorem RandomIndex.Built.unroll_mod {dims : Nat} {dr nr : Nat → Nat} {e : RandomIndex}
    (hb : Built dims dr nr e) (i : Nat) (hi : i < dims) :
    e.riunroll_ i = prodFrom nr (i + 1) (dims - (i + 1)) % U32 := by
  rw [hb.unroll_eq i hi, unrollLoop_mod nr _ _ 1 (by simp [U32])]
  simp

theorem RandomIndex.Built.distnumel_mod {dims : Nat} {dr nr : Nat → Nat} {e : RandomIndex}
    (hb : Built dims dr nr e) : e.distnumel_ = prodFrom nr 0 dims % U32 := by
  rw [hb.distnumel_eq, unrollLoop_mod nr _ _ 1 (by simp [U32])]
  simp

/-- The sums of `cosa`: the norms are not negative, and a zero norm forces a
zero dot sum. -/
theorem cosaLoop_zero (e : RandomIndex) (d1 : RIBuf) (i1 : Nat → Nat) (d2 : RIBuf)
    (i2 : Nat → Nat) :
    ∀ (k j : Nat) (acc s : Int × Int × Int),
      0 ≤ acc.2.1 → 0 ≤ acc.2.2 → (acc.2.1 = 0 → acc.1 = 0) → (acc.2.2 = 0 → acc.1 = 0) →
      cosaLoop e d1 i1 d2 i2 k j acc = .ok s →
      0 ≤ s.2.1 ∧ 0 ≤ s.2.2 ∧ (s.2.1 = 0 → s.1 = 0) ∧ (s.2.2 = 0 → s.1 = 0) := by
  intro k
  induction k with
  | zero =>
    intro j acc s h1 h2 h3 h4 h
    simp only [cosaLoop] at h
    injection h with h
    subst h
    exact ⟨h1, h2, h3, h4⟩
  | succ k ih =>
    intro j acc s h1 h2 h3 h4 h
    rw [cosaLoop] at h
    cases ht : cosaTermLoop e i1 i2 e.dims_ 0 j 0 0 with
    | error f => rw [ht] at h; cases h
    | ok p =>
      obtain ⟨a, b⟩ := p
      rw [ht] at h
      simp only [] at h
      by_cases hl1 : a < d1.numel
      · by_cases hl2 : b < d2.numel
        · simp only [hl1, hl2, not_true_eq_false, if_false] at h
          have sq1 : 0 ≤ d1.cell a * d1.cell a := mul_self_nonneg _
          have sq2 : 0 ≤ d2.cell b * d2.cell b := mul_self_nonneg _
          refine ih (j + 1) _ s (by simp only []; omega) (by simp only []; omega) ?_ ?_ h
          · intro hz
            simp only [] at hz ⊢
            have hz1 : acc.2.1 = 0 := by omega
            have hz2 : d1.cell a * d1.cell a = 0 := by omega
            have hz3 : d1.cell a = 0 := mul_self_eq_zero.1 hz2
            rw [h3 hz1, hz3]; simp
          · intro hz
            simp only [] at hz ⊢
            have hz1 : acc.2.2 = 0 := by omega
            have hz2 : d2.cell b * d2.cell b = 0 := by omega
            have hz3 : d2.cell b = 0 := mul_self_eq_zero.1 hz2
            rw [h4 hz1, hz3]; simp
        · simp [hl1, hl2] at h
      · simp [hl1] at h

/-- C9 (amended): whenever `cosa` has accumulated its sums and `norm1` or `norm2` is zero,
the dot sum is zero as well and the call returns, with no failure reported, the
NaN that the division `0.0 / sqrt(0.0)` gives. -/
theorem C9_zero_norm_unflagged (e : RandomIndex) (d1 : RIBuf) (i1 : Nat → Nat) (d2 : RIBuf)
    (i2 : Nat → Nat) (s : Int × Int × Int) (h : cosaSums e d1 i1 d2 i2 = .ok s)
    (hz : s.2.1 = 0 ∨ s.2.2 = 0) :
    s.1 = 0 ∧ cosa e d1 i1 d2 i2 = .ok .nan := by
  have hs : 0 ≤ s.2.1 ∧ 0 ≤ s.2.2 ∧ (s.2.1 = 0 → s.1 = 0) ∧ (s.2.2 = 0 → s.1 = 0) := by
    unfold cosaSums at h
    cases hset : cosaSetup e i1 i2 e.dims_ 0 1 with
    | error f => rw [hset] at h; cases h
    | ok dnumel =>
      rw [hset] at h
      simp only [] at h
      exact cosaLoop_zero e d1 i1 d2 i2 dnumel 0 (0, 0, 0) s (le_refl _) (le_refl _)
        (fun _ => rfl) (fun _ => rfl) h
  have hdot : s.1 = 0 := by
    rcases hz with h0 | h0
    · exact hs.2.2.1 h0
    · exact hs.2.2.2 h0
  refine ⟨hdot, ?_⟩
  unfold cosa
  rw [h]
  simp only [cosaQuot]
  have : s.2.1 * s.2.2 = 0 := by
    rcases hz with h0 | h0 <;> rw [h0] <;> simp
  simp only [this, if_true, hdot]

/-- C9 witness: in the engine `ex`, a zeroed buffer against a buffer of threes at the
coordinate (3, 7): `norm1 = 0`, and `cosa` returns NaN. -/
theorem C9_zero_norm_unflagged_witness :
    (0 : Int) = 0 ∧ cosa exE (RIBuf.zero exE.datanumel_) exInd exBuf3 exInd = .ok .nan :=
  C9_zero_norm_unflagged exE (RIBuf.zero exE.datanumel_) exInd exBuf3 exInd (0, 0, 288) rfl
    (Or.inl rfl)

/-- C9 as stated fails: in the engine `ex` the call `cosa(d, c, d, c)` with a zeroed
buffer `d` and `c = (3, 7)` has `norm1 = norm2 = 0` and returns normally, with
the value NaN and no failure. -/
theorem C9_counterexample :
    cosaSums exE (RIBuf.zero exE.datanumel_) exInd (RIBuf.zero exE.datanumel_) exInd
      = .ok (0, 0, 0) ∧
    cosa exE (RIBuf.zero exE.datanumel_) exInd (RIBuf.zero exE.datanumel_) exInd
      = .ok .nan :=
  ⟨rfl, rfl⟩

/-- C10 (amended): for every successfully constructed engine for which twice the product of
the data ranges fits 32 bits, `datasize()` is `sizeof(RIData) = 2` times the
product of the data ranges. -/
theorem C10_datasize (dims : Nat) (dr nr : Nat → Nat) (e : RandomIndex)
    (hnew : RandomIndex.new dims dr nr = .ok e) (hfit : 2 * prodFrom dr 0 dims < U32) :
    e.datanumel_ = prodFrom dr 0 dims ∧ datasize e = 2 * prodFrom dr 0 dims := by
  have hb := new_built hnew
  have h1 := hb.datanumel_exact (by omega)
  refine ⟨h1, ?_⟩
  unfold datasize
  rw [h1, umul_eq _ _ (by omega), Nat.mul_comm]

/-- C10 witness: the engine of the driver, data ranges {2048, 32}: `datasize()` is
`sizeof(RIData[2048*32]) = 131072`, as the driver asserts. -/
theorem C10_datasize_witness :
    mainE.datanumel_ = 2048 * 32 ∧ datasize mainE = 131072 :=
  C10_datasize 2 mainDr mainNr mainE rfl (by decide)

/-- C10 as stated fails: for data ranges {65535, 65535} the product 4294836225 fits
32 bits, the constructor succeeds, and `datasize()` returns 4294705154, which
is `2 * 4294836225` modulo `2^32`. -/
theorem C10_counterexample :
    RandomIndex.new 2 (fun _ => 65535) (fun _ => 2) = .ok bigE ∧
    prodFrom (fun _ => 65535) 0 2 = 4294836225 ∧ 4294836225 < U32 ∧
    datasize bigE = 4294705154 ∧ datasize bigE ≠ 2 * prodFrom (fun _ => 65535) 0 2 :=
  ⟨rfl, by decide, by decide, by decide, by decide⟩

theorem cosaUnrollLoop_eq (e : RandomIndex) (i1 : Nat → Nat) :
    ∀ (k j acc : Nat),
      cosaUnrollLoop e i1 k j acc = unrollLoop (cosaRadix e i1) k j acc := by
  intro k
  induction k with
  | zero => intro j acc; rfl
  | succ k ih =>
    intro j acc
    rw [cosaUnrollLoop, unrollLoop, ih]
    congr 1
    unfold cosaRadix
    by_cases h : i1 j = Average
    · simp only [h, if_true]
    · simp only [h, if_false]

/-- The first loop of `cosa` returns the product of the radices when the two
coordinates agree on the averaged dimensions. -/
theorem cosaSetup_eq (e : RandomIndex) (i1 i2 : Nat → Nat) :
    ∀ (k i acc : Nat),
      (∀ m, i ≤ m → m < i + k → (i1 m = Average ∨ i2 m = Average) → i1 m = i2 m) →
      cosaSetup e i1 i2 k i acc = .ok (unrollLoop (cosaRadix e i1) k i acc) := by
  intro k
  induction k with
  | zero => intro i acc _; rfl
  | succ k ih =>
    intro i acc h
    have h0 := h i (Nat.le_refl _) (by omega)
    have hrest : ∀ m, i + 1 ≤ m → m < i + 1 + k →
        (i1 m = Average ∨ i2 m = Average) → i1 m = i2 m :=
      fun m hm1 hm2 => h m (by omega) (by omega)
    rw [cosaSetup, unrollLoop]
    by_cases hA : i1 i = Average ∨ i2 i = Average
    · have heq := h0 hA
      have hA1 : i1 i = Average := by
        rcases hA with h1 | h1
        · exact h1
        · rw [heq]; exact h1
      have hR : cosaRadix e i1 i = (e.ritables_ i).datarange := by
        unfold cosaRadix; rw [if_pos hA1]
      rw [if_pos hA, if_neg (not_not.2 heq), ih (i + 1) _ hrest, hR]
    · have hA1 : ¬ i1 i = Average := fun x => hA (Or.inl x)
      have hR : cosaRadix e i1 i = (e.ritables_ i).cols := by
        unfold cosaRadix; rw [if_neg hA1]
      rw [if_neg hA, ih (i + 1) _ hrest, hR]

theorem cosaRadix_le {dims : Nat} {dr nr : Nat → Nat} {e : RandomIndex}
    (hb : Built dims dr nr e) (i1 : Nat → Nat) (i : Nat) (hi : i < dims) :
    cosaRadix e i1 i ≤ dr i := by
  unfold cosaRadix RITable.datarange RITable.cols
  rw [hb.tab_range i hi, hb.tab_cols i hi]
  have := hb.cols_lt i hi
  by_cases h : i1 i = Average
  · simp only [h, if_true]; omega
  · simp only [h, if_false]; omega

theorem cosaUnroll_exact {dims : Nat} {dr nr : Nat → Nat} {e : RandomIndex}
    (hb : Built dims dr nr e) (hfit : prodFrom dr 0 dims < U32) (i1 : Nat → Nat)
    (i : Nat) (hi : i < dims) :
    cosaUnroll e i1 i = prodFrom (cosaRadix e i1) (i + 1) (dims - (i + 1)) := by
  unfold cosaUnroll
  rw [cosaUnrollLoop_eq, hb.dims_eq]
  exact hb.loop_exact hfit _ (fun m hm => cosaRadix_le hb i1 m hm) _ _ (by omega)

/-- One step of the flattening of the offset, without wrap-around. -/
theorem offset_step {dims : Nat} {dr nr : Nat → Nat} {e : RandomIndex}
    (hb : Built dims dr nr e) (hfit : prodFrom dr 0 dims < U32) (i r D : Nat) (hi : i < dims)
    (hr : r < dr i) (hD : D < prodFrom dr 0 i) :
    uadd r (umul (e.ritables_ i).datarange D) = r + dr i * D ∧
    r + dr i * D < prodFrom dr 0 (i + 1) := by
  have hprod : prodFrom dr 0 (i + 1) = prodFrom dr 0 i * dr i := by
    have := prodFrom_succ_right dr 0 i
    simpa using this
  have hDnew : r + dr i * D < prodFrom dr 0 (i + 1) := by
    rw [hprod]
    have h1 : dr i * (D + 1) ≤ dr i * prodFrom dr 0 i := Nat.mul_le_mul_left _ hD
    have h2 : dr i * (D + 1) = dr i * D + dr i := by ring
    have h3 : dr i * prodFrom dr 0 i = prodFrom dr 0 i * dr i := Nat.mul_comm _ _
    omega
  have hle : prodFrom dr 0 (i + 1) ≤ prodFrom dr 0 dims := hb.sub_le 0 (i + 1) (by omega)
  have hd : (e.ritables_ i).datarange = dr i := hb.tab_range i hi
  refine ⟨?_, hDnew⟩
  rw [hd, umul_eq _ _ (by omega), uadd_eq _ _ (by omega)]

/-- In the wrap-free setting the loop over the dimensions of `cosa` returns two
offsets inside a buffer of `datanumel_` elements. -/
theorem cosaTermLoop_ok {dims : Nat} {dr nr : Nat → Nat} {e : RandomIndex}
    (hb : Built dims dr nr e) (hfit : prodFrom dr 0 dims < U32)
    (hv : ∀ i, i < dims → (e.ritables_ i).Valid) (i1 i2 : Nat → Nat)
    (hc1 : ∀ i, i < dims → ¬ i1 i = Average → i1 i < (e.ritables_ i).rows_)
    (hc2 : ∀ i, i < dims → ¬ i1 i = Average → i2 i < (e.ritables_ i).rows_) :
    ∀ (k i temp D1 D2 : Nat), i + k = dims → temp < prodFrom (cosaRadix e i1) i k →
      D1 < prodFrom dr 0 i → D2 < prodFrom dr 0 i →
      ∃ X1 X2, cosaTermLoop e i1 i2 k i temp D1 D2 = .ok (X1, X2) ∧
        X1 < prodFrom dr 0 dims ∧ X2 < prodFrom dr 0 dims := by
  intro k
  induction k with
  | zero =>
    intro i temp D1 D2 hik _ h1 h2
    have : i = dims := by omega
    subst this
    exact ⟨D1, D2, rfl, h1, h2⟩
  | succ k ih =>
    intro i temp D1 D2 hik ht h1 h2
    have hi : i < dims := by omega
    have hu : cosaUnroll e i1 i = prodFrom (cosaRadix e i1) (i + 1) k := by
      rw [cosaUnroll_exact hb hfit i1 i hi]
      congr 1; omega
    have ht' : temp < cosaRadix e i1 i * prodFrom (cosaRadix e i1) (i + 1) k := ht
    have hR : 0 < prodFrom (cosaRadix e i1) (i + 1) k := by
      rcases Nat.eq_zero_or_pos (prodFrom (cosaRadix e i1) (i + 1) k) with h0 | h0
      · rw [h0] at ht'; omega
      · exact h0
    have hcol : temp / prodFrom (cosaRadix e i1) (i + 1) k < cosaRadix e i1 i :=
      (Nat.div_lt_iff_lt_mul hR).2 ht'
    have hU : temp < U32 := by
      have a1 : prodFrom (cosaRadix e i1) i (k + 1) ≤ prodFrom dr i (k + 1) :=
        prodFrom_le _ _ _ _ (fun m hm => cosaRadix_le hb i1 _ (by omega))
      have a2 := hb.sub_le i (k + 1) (by omega)
      omega
    have hmul : temp / prodFrom (cosaRadix e i1) (i + 1) k
        * prodFrom (cosaRadix e i1) (i + 1) k ≤ temp := Nat.div_mul_le_self _ _
    have hsub : usub temp (umul (temp / prodFrom (cosaRadix e i1) (i + 1) k)
        (prodFrom (cosaRadix e i1) (i + 1) k))
        = temp % prodFrom (cosaRadix e i1) (i + 1) k := by
      rw [umul_eq _ _ (by omega), usub_eq _ _ hmul hU]
      have := Nat.div_add_mod temp (prodFrom (cosaRadix e i1) (i + 1) k)
      have hc : prodFrom (cosaRadix e i1) (i + 1) k
          * (temp / prodFrom (cosaRadix e i1) (i + 1) k)
          = temp / prodFrom (cosaRadix e i1) (i + 1) k
            * prodFrom (cosaRadix e i1) (i + 1) k := Nat.mul_comm _ _
      omega
    have hne : ¬ cosaUnroll e i1 i = 0 := by rw [hu]; omega
    rw [cosaTermLoop]
    simp only [hne, if_false]
    rw [hu, hsub]
    by_cases hA : i1 i = Average
    · simp only [hA, not_true_eq_false, if_false]
      have hRi : cosaRadix e i1 i = dr i := by
        unfold cosaRadix; rw [if_pos hA]; exact hb.tab_range i hi
      rw [hRi] at hcol
      obtain ⟨o1, o2⟩ := offset_step hb hfit i _ D1 hi hcol h1
      obtain ⟨o3, o4⟩ := offset_step hb hfit i _ D2 hi hcol h2
      rw [o1, o3]
      exact ih (i + 1) _ _ _ (by omega) (Nat.mod_lt _ hR) o2 o4
    · simp only [hA, not_false_eq_true, if_true]
      have hRi : cosaRadix e i1 i = (e.ritables_ i).cols_ := by
        unfold cosaRadix; rw [if_neg hA]; rfl
      rw [hRi] at hcol
      obtain ⟨t1, t2⟩ := (hv i hi).item_eq (i1 i) _ (hc1 i hi hA) hcol
      obtain ⟨t3, t4⟩ := (hv i hi).item_eq (i2 i) _ (hc2 i hi hA) hcol
      rw [hb.tab_range i hi] at t2 t4
      rw [t1, t3]
      simp only []
      obtain ⟨o1, o2⟩ := offset_step hb hfit i _ D1 hi t2 h1
      obtain ⟨o3, o4⟩ := offset_step hb hfit i _ D2 hi t4 h2
      rw [o1, o3]
      exact ih (i + 1) _ _ _ (by omega) (Nat.mod_lt _ hR) o2 o4

/-- In the wrap-free setting the `j` loop of `cosa` returns. -/
theorem cosaLoop_total {dims : Nat} {dr nr : Nat → Nat} {e : RandomIndex}
    (hb : Built dims dr nr e) (hfit : prodFrom dr 0 dims < U32)
    (hv : ∀ i, i < dims → (e.ritables_ i).Valid) (d1 d2 : RIBuf) (i1 i2 : Nat → Nat)
    (hn1 : d1.numel = e.datanumel_) (hn2 : d2.numel = e.datanumel_)
    (hc1 : ∀ i, i < dims → ¬ i1 i = Average → i1 i < (e.ritables_ i).rows_)
    (hc2 : ∀ i, i < dims → ¬ i1 i = Average → i2 i < (e.ritables_ i).rows_) :
    ∀ (k j : Nat) (acc : Int × Int × Int), j + k ≤ prodFrom (cosaRadix e i1) 0 dims →
      ∃ s, cosaLoop e d1 i1 d2 i2 k j acc = .ok s := by
  intro k
  induction k with
  | zero => intro j acc _; exact ⟨acc, rfl⟩
  | succ k ih =>
    intro j acc hjk
    obtain ⟨X1, X2, h1, h2, h3⟩ := cosaTermLoop_ok hb hfit hv i1 i2 hc1 hc2 dims 0 j 0 0
      (by omega) (by omega) (by simp [prodFrom]) (by simp [prodFrom])
    have hdata := hb.datanumel_exact hfit
    rw [cosaLoop, hb.dims_eq, h1]
    have a1 : X1 < d1.numel := by rw [hn1, hdata]; exact h2
    have a2 : X2 < d2.numel := by rw [hn2, hdata]; exact h3
    simp only [a1, a2, not_true_eq_false, if_false]
    exact ih (j + 1) _ (by omega)

/-- In the wrap-free setting `cosa` accumulates its sums without fault when the
coordinates agree on the averaged dimensions and are covered elsewhere. -/
theorem cosaSums_total {dims : Nat} {dr nr : Nat → Nat} {e : RandomIndex}
    (hb : Built dims dr nr e) (hfit : prodFrom dr 0 dims < U32)
    (hv : ∀ i, i < dims → (e.ritables_ i).Valid) (d1 d2 : RIBuf) (i1 i2 : Nat → Nat)
    (hn1 : d1.numel = e.datanumel_) (hn2 : d2.numel = e.datanumel_)
    (hag : ∀ i, i < dims → (i1 i = Average ∨ i2 i = Average) → i1 i = i2 i)
    (hc1 : ∀ i, i < dims → ¬ i1 i = Average → i1 i < (e.ritables_ i).rows_)
    (hc2 : ∀ i, i < dims → ¬ i1 i = Average → i2 i < (e.ritables_ i).rows_) :
    ∃ s, cosaSums e d1 i1 d2 i2 = .ok s := by
  unfold cosaSums
  rw [hb.dims_eq, cosaSetup_eq e i1 i2 dims 0 1 (fun m _ hm => hag m (by omega))]
  simp only []
  have hex : unrollLoop (cosaRadix e i1) dims 0 1 = prodFrom (cosaRadix e i1) 0 dims :=
    hb.loop_exact hfit _ (fun m hm => cosaRadix_le hb i1 m hm) 0 dims (by omega)
  rw [hex]
  exact cosaLoop_total hb hfit hv d1 d2 i1 i2 hn1 hn2 hc1 hc2
    (prodFrom (cosaRadix e i1) 0 dims) 0 (0, 0, 0) (by omega)

/-- C5: whenever `cosa(d, c, d, c)` has accumulated its sums, the three sums are equal
(`dot = norm1 = norm2`), and when the norm is nonzero the call returns the
quotient `dot / sqrt(norm1*norm2)` of these sums, whose value is 1; the sums
are accumulated without fault when the flat offsets do not wrap, the buffer
has `datanumel_` elements, the tables satisfy the row invariant and every entry
of `c` is `Average` or covered by its table. -/
theorem C5_cosine_self_similarity (e : RandomIndex) (d : RIBuf) (c : Nat → Nat) :
    (∀ s : Int × Int × Int, cosaSums e d c d c = .ok s →
      s.1 = s.2.1 ∧ s.2.1 = s.2.2 ∧
      (s.2.1 ≠ 0 →
        cosa e d c d c = .ok (.quot s.1 s.2.1 s.2.2) ∧
        (s.1 : ℝ) / Real.sqrt ((s.2.1 : ℝ) * (s.2.2 : ℝ)) = 1)) ∧
    (∀ (dims : Nat) (dr nr : Nat → Nat), Built dims dr nr e → prodFrom dr 0 dims < U32 →
      (∀ i, i < dims → (e.ritables_ i).Valid) → d.numel = e.datanumel_ →
      (∀ i, i < dims → c i = Average ∨ c i < (e.ritables_ i).rows) →
      ∃ s, cosaSums e d c d c = .ok s) := by
  refine ⟨fun s h => cosa_self_sums e d c s h, ?_⟩
  intro dims dr nr hb hfit hv hn hc
  have hcov : ∀ i, i < dims → ¬ c i = Average → c i < (e.ritables_ i).rows_ := by
    intro i hi hA
    rcases hc i hi with h | h
    · exact absurd h hA
    · exact h
  exact cosaSums_total hb hfit hv d d c c hn hn (fun _ _ _ => rfl) hcov hcov

/-- C5 witness: for the engine `ex`, a buffer whose cells hold 3 and the coordinate
(3, 7), the 32 terms give `dot = norm1 = norm2 = 288`. -/
theorem C5_cosine_self_similarity_witness :
    (288 : Int) = 288 ∧ (288 : Int) = 288 ∧
    ((288 : Int) ≠ 0 →
      cosa exE exBuf3 exInd exBuf3 exInd = .ok (.quot 288 288 288) ∧
      (((288 : Int) : ℝ)) / Real.sqrt ((((288 : Int) : ℝ)) * (((288 : Int) : ℝ))) = 1) :=
  (C5_cosine_self_similarity exE exBuf3 exInd).1 (288, 288, 288) rfl

/-- C11 (amended): for every table state `size()` returns the footprint of the table in
bytes modulo `2^32`, which is `sizeof(RIIndex) = 2` times `rows * cols` whenever
that fits 32 bits; for an engine with one dimension `indexsize()` returns the
same value. -/
theorem C11_table_size (t : RITable) :
    t.size = (2 * (t.rows * t.cols)) % U32 ∧
    (2 * (t.rows * t.cols) < U32 → t.size = 2 * (t.rows * t.cols)) ∧
    (∀ e : RandomIndex, e.dims_ = 1 → e.ritables_ 0 = t → e.indexsize = t.size) := by
  have h : t.size = (2 * (t.rows * t.cols)) % U32 := by
    unfold RITable.size RITable.rows RITable.cols
    congr 1
    ring
  refine ⟨h, fun hlt => by rw [h]; exact Nat.mod_eq_of_lt hlt, ?_⟩
  intro e hd ht
  unfold RandomIndex.indexsize
  rw [hd]
  simp only [RandomIndex.indexsizeLoop, ht]
  unfold uadd
  rw [Nat.zero_add, h, Nat.mod_mod]

/-- C11 witness: the table `gxT1` with 2 rows of 2 cells: `size()` is 8. -/
theorem C11_table_size_witness : gxT1.1.size = 2 * (gxT1.1.rows * gxT1.1.cols) :=
  (C11_table_size gxT1.1).2.1 (by decide)

/-- C11 as stated fails: the table `gxT1` has 2 rows of 2 cells, that is 4 cells, and
`size()` returns 8. -/
theorem C11_counterexample :
    gxT1.1.rows = 2 ∧ gxT1.1.cols = 2 ∧ gxT1.1.size = 8 ∧
    gxT1.1.size ≠ gxT1.1.rows * gxT1.1.cols := by
  decide

theorem RITable.new_total {d c : Nat} (h1 : d ≤ MAX_RIIndex) (h2 : c % 2 = 0) (h3 : c < d) :
    ∃ t, RITable.new d c = .ok t := by
  unfold RITable.new
  simp [h1, h2, h3]

theorem RITable.new_error {d c : Nat} {f : Fault} (h : RITable.new d c = .error f) :
    f = .assertion := by
  unfold RITable.new at h
  split_ifs at h <;> injection h with h <;> exact h.symm

/-- The constructor loop returns when every remaining dimension passes the
assertions of the table constructor. -/
theorem newLoop_total (dims : Nat) (dr nr : Nat → Nat) :
    ∀ (k i : Nat) (e : RandomIndex),
      (∀ m, i ≤ m → m < i + k → dr m ≤ MAX_RIIndex ∧ nr m % 2 = 0 ∧ nr m < dr m) →
      ∃ e', newLoop dims dr nr k i e = .ok e' := by
  intro k
  induction k with
  | zero => intro i e _; exact ⟨e, rfl⟩
  | succ k ih =>
    intro i e h
    obtain ⟨a1, a2, a3⟩ := h i (Nat.le_refl _) (by omega)
    obtain ⟨t, ht⟩ := RITable.new_total a1 a2 a3
    rw [newLoop, ht]
    exact ih (i + 1) _ (fun m hm1 hm2 => h m (by omega) (by omega))

theorem newLoop_error (dims : Nat) (dr nr : Nat → Nat) :
    ∀ (k i : Nat) (e : RandomIndex) (f : Fault),
      newLoop dims dr nr k i e = .error f → f = .assertion := by
  intro k
  induction k with
  | zero => intro i e f h; simp [newLoop] at h
  | succ k ih =>
    intro i e f h
    rw [newLoop] at h
    cases ht : RITable.new (dr i) (nr i) with
    | error g =>
      rw [ht] at h
      injection h with h
      rw [← h]
      exact RITable.new_error ht
    | ok t =>
      rw [ht] at h
      exact ih (i + 1) _ f h

/-- C12: the constructor returns an engine if and only if `dims > 0` and, for every
dimension, the data range is at most 65535, the index count is even and the
index count is below the data range; otherwise it stops at a failed assertion;
the engine it returns has `saturation() = 0` and `range(d) = 0` for every
dimension. -/
theorem C12_construction (dims : Nat) (dr nr : Nat → Nat) :
    ((∃ e, RandomIndex.new dims dr nr = .ok e) ↔
      (0 < dims ∧ ∀ d, d < dims → dr d ≤ 65535 ∧ nr d % 2 = 0 ∧ nr d < dr d)) ∧
    ((¬ ∃ e, RandomIndex.new dims dr nr = .ok e) →
      RandomIndex.new dims dr nr = .error .assertion) ∧
    (∀ e, RandomIndex.new dims dr nr = .ok e →
      e.saturation = 0 ∧ ∀ d, d < dims → e.range d = .ok 0) := by
  refine ⟨⟨?_, ?_⟩, ?_, ?_⟩
  · rintro ⟨e, he⟩
    have hb := new_built he
    exact ⟨hb.dims_pos, fun d hd => ⟨hb.range_le d hd, hb.cols_even d hd, hb.cols_lt d hd⟩⟩
  · rintro ⟨hpos, hall⟩
    unfold RandomIndex.new
    simp only [hpos, not_true_eq_false, if_false]
    exact newLoop_total dims dr nr dims 0 _ (fun m _ hm => by
      have := hall m (by omega)
      exact this)
  · intro hno
    cases hn : RandomIndex.new dims dr nr with
    | ok e => exact absurd ⟨e, hn⟩ hno
    | error f =>
      have : f = .assertion := by
        unfold RandomIndex.new at hn
        split_ifs at hn with h1
        · exact newLoop_error dims dr nr dims 0 _ f hn
        · injection hn with hn; exact hn.symm
      rw [this]
  · intro e he
    have hb := new_built he
    have he' := he
    unfold RandomIndex.new at he'
    split_ifs at he' with h1
    obtain ⟨_, a2, _, _, a5, _⟩ := newLoop_spec _ _ _ _ _ _ _ he'
    refine ⟨a2, ?_⟩
    intro d hd
    have ht := (a5 d (by omega) (by omega)).2
    obtain ⟨_, _, _, _, _, hrows, _⟩ := RITable.new_ok ht
    unfold RandomIndex.range
    have hdim : d < e.dims_ := by rw [hb.dims_eq]; exact hd
    simp only [hdim, not_true_eq_false, if_false]
    unfold RITable.rows
    rw [hrows]

/-- C12 witness: the engine of the driver, `dims = 2`, data ranges {2048, 32}, index
counts {8, 4}. -/
theorem C12_construction_witness :
    mainE.saturation = 0 ∧ ∀ d, d < 2 → mainE.range d = .ok 0 :=
  (C12_construction 2 mainDr mainNr).2.2 mainE rfl

/-- The negated variable of the loop over the dimensions ends as the start value
when the number of negative-half columns is even and as its negation when it is
odd, for every start value but -32768. -/
theorem termLoop_sign (e : RandomIndex) (ind : Nat → Nat) :
    ∀ (k i temp D : Nat) (w : Int) (X : Nat) (w' : Int), -32767 ≤ w → w ≤ 32767 →
      termLoop e ind k i temp D w = .ok (X, w') →
      w' = if negLoop e k i temp % 2 = 0 then w else -w := by
  intro k
  induction k with
  | zero =>
    intro i temp D w X w' _ _ h
    simp only [termLoop] at h
    injection h with h
    injection h with _ h2
    simp [negLoop, h2]
  | succ k ih =>
    intro i temp D w X w' a1 a2 h
    rw [termLoop] at h
    by_cases hz : e.riunroll_ i = 0
    · simp [hz] at h
    · simp only [hz, if_false] at h
      cases hit : (e.ritables_ i).item (ind i) (temp / e.riunroll_ i) with
      | error f => rw [hit] at h; cases h
      | ok r =>
        rw [hit] at h
        simp only [] at h
        rw [negLoop]
        by_cases hs : temp / e.riunroll_ i ≥ (e.ritables_ i).numpositive
        · simp only [hs, if_true] at h ⊢
          rw [toRIData_neg w a1 a2] at h
          have := ih (i + 1) _ _ (-w) X w' (by omega) (by omega) h
          rw [this]
          by_cases hp : negLoop e k (i + 1)
              (usub temp (umul (temp / e.riunroll_ i) (e.riunroll_ i))) % 2 = 0
          · have hp' : ¬ (1 + negLoop e k (i + 1)
                (usub temp (umul (temp / e.riunroll_ i) (e.riunroll_ i)))) % 2 = 0 := by omega
            simp only [hp, hp', if_true, if_false]
          · have hp' : (1 + negLoop e k (i + 1)
                (usub temp (umul (temp / e.riunroll_ i) (e.riunroll_ i)))) % 2 = 0 := by omega
            simp only [hp, hp', if_true, if_false, neg_neg]
        · simp only [hs, if_false, Nat.zero_add] at h ⊢
          exact ih (i + 1) _ _ w X w' a1 a2 h

/-- The start value -32768 is never changed by the negation `w = -w`. -/
theorem termLoop_min (e : RandomIndex) (ind : Nat → Nat) :
    ∀ (k i temp D : Nat) (X : Nat) (w' : Int),
      termLoop e ind k i temp D (-32768) = .ok (X, w') → w' = -32768 := by
  intro k
  induction k with
  | zero =>
    intro i temp D X w' h
    simp only [termLoop] at h
    injection h with h
    injection h with _ h2
    exact h2.symm
  | succ k ih =>
    intro i temp D X w' h
    rw [termLoop] at h
    by_cases hz : e.riunroll_ i = 0
    · simp [hz] at h
    · simp only [hz, if_false] at h
      cases hit : (e.ritables_ i).item (ind i) (temp / e.riunroll_ i) with
      | error f => rw [hit] at h; cases h
      | ok r =>
        rw [hit] at h
        simp only [] at h
        have hneg : toRIData (-(-32768)) = -32768 := by decide
        rw [hneg] at h
        simp only [ite_self] at h
        exact ih (i + 1) _ _ X w' h

/-- The sign rule: for a term of `encode` that computes its offset `X` and weight `sw`
from the weight `w`: when `w` is not -32768, `sw` is `w` if the number of negative-half
columns is even and `-w` if it is odd; when `w` is -32768, `sw` is -32768
whatever that number is; and `decode` computes for the same term the same
offset and the sign `+1` or `-1` by the same rule. -/
theorem term_sign_rule (e : RandomIndex) (ind : Nat → Nat) (w : Int) (j X : Nat) (sw : Int)
    (h : term e ind w j = .ok (X, sw)) :
    (-32767 ≤ w → w ≤ 32767 → sw = if negHits e j % 2 = 0 then w else -w) ∧
    (w = -32768 → sw = -32768) ∧
    (∀ (Y : Nat) (s : Int), term e ind 1 j = .ok (Y, s) →
      s = if negHits e j % 2 = 0 then 1 else -1) := by
  refine ⟨?_, ?_, ?_⟩
  · intro a1 a2
    exact termLoop_sign e ind _ _ _ _ w X sw a1 a2 h
  · intro hw
    subst hw
    exact termLoop_min e ind _ _ _ _ X sw h
  · intro Y s hs
    exact termLoop_sign e ind _ _ _ _ 1 Y s (by omega) (by omega) hs

/-- C13: evaluation at the failing input.  In the engine `ex` at the coordinate (3, 7),
term 2 has one negative-half column and addresses the cell 24030; for the
weight 5 it adds -5 and `decode` uses the sign -1, but for the weight -32768 it
adds -32768, not the negation 32768: a zeroed cell 24030 holds -32768 after the
call and no saturation event is recorded. -/
theorem C13_sign_rule_at_minimum :
    negHits exE 2 = 1 ∧
    term exE exInd 5 2 = .ok (24030, -5) ∧
    term exE exInd 1 2 = .ok (24030, -1) ∧
    term exE exInd (-32768) 2 = .ok (24030, -32768) ∧
    (encode exE (RIBuf.zero exE.datanumel_) exInd (-32768)).1 = none ∧
    (encode exE (RIBuf.zero exE.datanumel_) exInd (-32768)).2.1.cell 24030 = -32768 ∧
    (encode exE (RIBuf.zero exE.datanumel_) exInd (-32768)).2.2 = 0 :=
  ⟨by decide, rfl, rfl, rfl, by decide, by decide, by decide⟩

theorem prodFrom_factor_pos (f : Nat → Nat) :
    ∀ (k i : Nat), 0 < prodFrom f i k → ∀ m, m < k → 0 < f (i + m) := by
  intro k
  induction k with
  | zero => intro i _ m hm; omega
  | succ k ih =>
    intro i h m hm
    have h' : 0 < f i * prodFrom f (i + 1) k := h
    have h1 : 0 < f i := Nat.pos_of_mul_pos_right h'
    have h2 : 0 < prodFrom f (i + 1) k := Nat.pos_of_mul_pos_left h'
    cases m with
    | zero => simpa using h1
    | succ m =>
      have := ih (i + 1) h2 m (by omega)
      have e1 : i + (m + 1) = i + 1 + m := by omega
      rw [e1]; exact this

theorem prodFrom_sub_le (f : Nat → Nat) (n : Nat) (hpos : ∀ m, m < n → 0 < f m)
    (i k : Nat) (hik : i + k ≤ n) : prodFrom f i k ≤ prodFrom f 0 n := by
  have e1 : n = i + (k + (n - (i + k))) := by omega
  have h1 : prodFrom f 0 n
      = prodFrom f 0 i * (prodFrom f i k * prodFrom f (i + k) (n - (i + k))) := by
    conv_lhs => rw [e1]
    rw [prodFrom_split, prodFrom_split]
    simp
  have p1 : 0 < prodFrom f 0 i := prodFrom_pos f 0 i (fun m hm => hpos _ (by omega))
  have p2 : 0 < prodFrom f (i + k) (n - (i + k)) :=
    prodFrom_pos f (i + k) _ (fun m hm => hpos _ (by omega))
  rw [h1]
  calc prodFrom f i k = 1 * (prodFrom f i k * 1) := by ring
    _ ≤ prodFrom f 0 i * (prodFrom f i k * prodFrom f (i + k) (n - (i + k))) :=
      Nat.mul_le_mul p1 (Nat.mul_le_mul_left _ p2)

/-- The decomposition by division and subtraction, with exact unrolling factors:
every column is below its index count and the columns recompose to `temp`. -/
theorem coliLoop_spec (e : RandomIndex) (nr : Nat → Nat) (dims : Nat)
    (hU : ∀ m, m < dims → e.riunroll_ m = prodFrom nr (m + 1) (dims - (m + 1)))
    (hpos : ∀ m, m < dims → 0 < nr m) (hP : prodFrom nr 0 dims < U32) :
    ∀ (k i temp : Nat), i + k = dims → temp < prodFrom nr i k →
      (coliLoop e k i temp).length = k ∧ colsBelow nr (coliLoop e k i temp) i ∧
      recompose e (coliLoop e k i temp) i = temp := by
  intro k
  induction k with
  | zero =>
    intro i temp _ ht
    simp only [prodFrom] at ht
    refine ⟨rfl, trivial, ?_⟩
    simp only [coliLoop, recompose]
    omega
  | succ k ih =>
    intro i temp hik ht
    have hi : i < dims := by omega
    have hu : e.riunroll_ i = prodFrom nr (i + 1) k := by
      rw [hU i hi]; congr 1; omega
    have ht' : temp < nr i * prodFrom nr (i + 1) k := ht
    have hR : 0 < prodFrom nr (i + 1) k :=
      prodFrom_pos nr (i + 1) k (fun m hm => hpos _ (by omega))
    have hcol : temp / prodFrom nr (i + 1) k < nr i := (Nat.div_lt_iff_lt_mul hR).2 ht'
    have hle := prodFrom_sub_le nr dims hpos i (k + 1) (by omega)
    have hmul : temp / prodFrom nr (i + 1) k * prodFrom nr (i + 1) k ≤ temp :=
      Nat.div_mul_le_self _ _
    have hdm := Nat.div_add_mod temp (prodFrom nr (i + 1) k)
    have hc : prodFrom nr (i + 1) k * (temp / prodFrom nr (i + 1) k)
        = temp / prodFrom nr (i + 1) k * prodFrom nr (i + 1) k := Nat.mul_comm _ _
    have hsub : usub temp (umul (temp / prodFrom nr (i + 1) k) (prodFrom nr (i + 1) k))
        = temp % prodFrom nr (i + 1) k := by
      rw [umul_eq _ _ (by omega), usub_eq _ _ hmul (by omega)]
      omega
    obtain ⟨a1, a2, a3⟩ := ih (i + 1) (temp % prodFrom nr (i + 1) k) (by omega)
      (Nat.mod_lt _ hR)
    rw [coliLoop, hu, hsub]
    refine ⟨by simp [a1], ⟨hcol, a2⟩, ?_⟩
    rw [recompose, a3, hu]
    omega

/-- Columns below their index counts recompose to a term index below the number
of terms, and the decomposition of that index returns the columns. -/
theorem recompose_spec (e : RandomIndex) (nr : Nat → Nat) (dims : Nat)
    (hU : ∀ m, m < dims → e.riunroll_ m = prodFrom nr (m + 1) (dims - (m + 1)))
    (hpos : ∀ m, m < dims → 0 < nr m) (hP : prodFrom nr 0 dims < U32) :
    ∀ (k i : Nat) (L : List Nat), i + k = dims → L.length = k → colsBelow nr L i →
      recompose e L i < prodFrom nr i k ∧ coliLoop e k i (recompose e L i) = L := by
  intro k
  induction k with
  | zero =>
    intro i L _ hl _
    have : L = [] := List.length_eq_zero.1 hl
    subst this
    exact ⟨by simp [recompose, prodFrom], rfl⟩
  | succ k ih =>
    intro i L hik hl hb
    cases L with
    | nil => simp at hl
    | cons c cs =>
      have hi : i < dims := by omega
      have hu : e.riunroll_ i = prodFrom nr (i + 1) k := by
        rw [hU i hi]; congr 1; omega
      have hR : 0 < prodFrom nr (i + 1) k :=
        prodFrom_pos nr (i + 1) k (fun m hm => hpos _ (by omega))
      obtain ⟨hc, hcs⟩ := hb
      obtain ⟨a1, a2⟩ := ih (i + 1) cs (by omega) (by simpa using hl) hcs
      have hle := prodFrom_sub_le nr dims hpos i (k + 1) (by omega)
      have hfull : prodFrom nr i (k + 1) = nr i * prodFrom nr (i + 1) k := rfl
      have hbound : c * prodFrom nr (i + 1) k + recompose e cs (i + 1)
          < nr i * prodFrom nr (i + 1) k := by
        have h1 : (c + 1) * prodFrom nr (i + 1) k ≤ nr i * prodFrom nr (i + 1) k :=
          Nat.mul_le_mul_right _ hc
        have h2 : (c + 1) * prodFrom nr (i + 1) k
            = c * prodFrom nr (i + 1) k + prodFrom nr (i + 1) k := by ring
        omega
      have hdiv : (c * prodFrom nr (i + 1) k + recompose e cs (i + 1))
          / prodFrom nr (i + 1) k = c := by
        rw [Nat.add_comm, Nat.add_mul_div_right _ _ hR, Nat.div_eq_of_lt a1, Nat.zero_add]
      have hmod : (c * prodFrom nr (i + 1) k + recompose e cs (i + 1))
          % prodFrom nr (i + 1) k = recompose e cs (i + 1) := by
        rw [Nat.add_comm, Nat.add_mul_mod_self_right, Nat.mod_eq_of_lt a1]
      have hsub : usub (c * prodFrom nr (i + 1) k + recompose e cs (i + 1))
          (umul c (prodFrom nr (i + 1) k)) = recompose e cs (i + 1) := by
        rw [umul_eq _ _ (by omega), usub_eq _ _ (by omega) (by omega)]
        omega
      rw [recompose, hu]
      refine ⟨by rw [hfull]; exact hbound, ?_⟩
      rw [coliLoop, hu, hdiv, hsub, a2]

theorem colsBelow_pos (nr : Nat → Nat) :
    ∀ (L : List Nat) (i : Nat), colsBelow nr L i → ∀ m, m < L.length → 0 < nr (i + m) := by
  intro L
  induction L with
  | nil => intro i _ m hm; simp at hm
  | cons c cs ih =>
    intro i hb m hm
    obtain ⟨hc, hcs⟩ := hb
    cases m with
    | zero => simp only [Nat.add_zero]; omega
    | succ m =>
      have := ih (i + 1) hcs m (by simpa using hm)
      have e1 : i + (m + 1) = i + 1 + m := by omega
      rw [e1]; exact this

/-- When the product of the index counts fits 32 bits and is not zero, the
unrolling factors are the exact products. -/
theorem unroll_exact_of_fit {dims : Nat} {dr nr : Nat → Nat} {e : RandomIndex}
    (hb : Built dims dr nr e) (hP : prodFrom nr 0 dims < U32)
    (hpos : ∀ m, m < dims → 0 < nr m) :
    ∀ m, m < dims → e.riunroll_ m = prodFrom nr (m + 1) (dims - (m + 1)) := by
  intro m hm
  rw [hb.unroll_mod m hm]
  have := prodFrom_sub_le nr dims hpos (m + 1) (dims - (m + 1)) (by omega)
  exact Nat.mod_eq_of_lt (by omega)

/-- C14 (amended): after construction `unroll[d]` is the product of the index counts of the
dimensions after `d` modulo `2^32`, hence that product when it fits 32 bits, and
1 for the last dimension; when the product of all index counts fits 32 bits,
`distnumel_` is that product, the decomposition by division and subtraction
maps every `j < distnumel_` to `dims` columns with `col[d] < numrind[d]` and
`j = sum of col[d] * unroll[d]`, and it is a bijection from `[0, distnumel_)`
onto the tuples of columns below their index counts. -/
theorem C14_mixed_radix (dims : Nat) (dr nr : Nat → Nat) (e : RandomIndex)
    (hnew : RandomIndex.new dims dr nr = .ok e) :
    (∀ d, d < dims →
      e.riunroll_ d = prodFrom nr (d + 1) (dims - (d + 1)) % U32 ∧
      (prodFrom nr (d + 1) (dims - (d + 1)) < U32 →
        e.riunroll_ d = prodFrom nr (d + 1) (dims - (d + 1)))) ∧
    e.riunroll_ (dims - 1) = 1 ∧
    (prodFrom nr 0 dims < U32 →
      e.distnumel_ = prodFrom nr 0 dims ∧
      (∀ j, j < e.distnumel_ →
        (coli e j).length = dims ∧ colsBelow nr (coli e j) 0 ∧ recompose e (coli e j) 0 = j) ∧
      (∀ j, j < e.distnumel_ → ∀ j', j' < e.distnumel_ → coli e j = coli e j' → j = j') ∧
      (∀ L : List Nat, L.length = dims → colsBelow nr L 0 →
        recompose e L 0 < e.distnumel_ ∧ coli e (recompose e L 0) = L)) := by
  have hb := new_built hnew
  have hmod : ∀ d, d < dims → e.riunroll_ d = prodFrom nr (d + 1) (dims - (d + 1)) % U32 :=
    fun d hd => hb.unroll_mod d hd
  refine ⟨fun d hd => ⟨hmod d hd, fun hlt => by rw [hmod d hd]; exact Nat.mod_eq_of_lt hlt⟩,
    ?_, ?_⟩
  · have hp := hb.dims_pos
    rw [hmod (dims - 1) (by omega)]
    have : dims - (dims - 1 + 1) = 0 := by omega
    rw [this]
    simp [prodFrom, U32]
  · intro hP
    have hdist : e.distnumel_ = prodFrom nr 0 dims := by
      rw [hb.distnumel_mod]; exact Nat.mod_eq_of_lt hP
    have hspec : ∀ j, j < e.distnumel_ →
        (coli e j).length = dims ∧ colsBelow nr (coli e j) 0 ∧
          recompose e (coli e j) 0 = j := by
      intro j hj
      have hpos : ∀ m, m < dims → 0 < nr m := fun m hm => by
        have := prodFrom_factor_pos nr dims 0 (by omega) m hm
        simpa using this
      have hU := unroll_exact_of_fit hb hP hpos
      unfold coli
      rw [hb.dims_eq]
      exact coliLoop_spec e nr dims hU hpos hP dims 0 j (by omega) (by omega)
    refine ⟨hdist, hspec, ?_, ?_⟩
    · intro j hj j' hj' heq
      have h1 := (hspec j hj).2.2
      have h2 := (hspec j' hj').2.2
      rw [heq] at h1
      omega
    · intro L hl hbL
      have hpos : ∀ m, m < dims → 0 < nr m := fun m hm => by
        have := colsBelow_pos nr L 0 hbL m (by omega)
        simpa using this
      have hU := unroll_exact_of_fit hb hP hpos
      obtain ⟨a1, a2⟩ := recompose_spec e nr dims hU hpos hP dims 0 L (by omega) hl hbL
      refine ⟨by rw [hdist]; exact a1, ?_⟩
      unfold coli
      rw [hb.dims_eq]
      exact a2

/-- C14 witness: the engine `ex`, index counts {8, 4}: `unroll = {4, 1}` and the 32 term
indices correspond to the pairs of columns below (8, 4). -/
theorem C14_mixed_radix_witness :
    (∀ d, d < 2 →
      exE0.riunroll_ d = prodFrom exNr (d + 1) (2 - (d + 1)) % U32 ∧
      (prodFrom exNr (d + 1) (2 - (d + 1)) < U32 →
        exE0.riunroll_ d = prodFrom exNr (d + 1) (2 - (d + 1)))) ∧
    exE0.riunroll_ (2 - 1) = 1 ∧
    (prodFrom exNr 0 2 < U32 →
      exE0.distnumel_ = prodFrom exNr 0 2 ∧
      (∀ j, j < exE0.distnumel_ →
        (coli exE0 j).length = 2 ∧ colsBelow exNr (coli exE0 j) 0 ∧
          recompose exE0 (coli exE0 j) 0 = j) ∧
      (∀ j, j < exE0.distnumel_ → ∀ j', j' < exE0.distnumel_ →
        coli exE0 j = coli exE0 j' → j = j') ∧
      (∀ L : List Nat, L.length = 2 → colsBelow exNr L 0 →
        recompose exE0 L 0 < exE0.distnumel_ ∧ coli exE0 (recompose exE0 L 0) = L)) :=
  C14_mixed_radix 2 exDr exNr exE0 rfl

/-- C14 as stated fails: with four dimensions, data ranges 65535 and index counts
{2, 65534, 65534, 65534} the constructor succeeds and `unroll[0]` is 786424,
while the product of the index counts after dimension 0 is 281449207693304;
the same holds with index counts {0, 65534, 65534, 65534}, for which the
product of all index counts, 0, fits 32 bits. -/
theorem C14_counterexample :
    RandomIndex.new 4 (fun _ => 65535) uxNr = .ok uxE ∧
    uxE.riunroll_ 0 = 786424 ∧ prodFrom uxNr 1 3 = 281449207693304 ∧
    uxE.riunroll_ 0 ≠ prodFrom uxNr 1 3 ∧
    RandomIndex.new 4 (fun _ => 65535) zxNr = .ok zxE ∧
    prodFrom zxNr 0 4 = 0 ∧ zxE.riunroll_ 0 = 786424 ∧
    zxE.riunroll_ 0 ≠ prodFrom zxNr 1 3 :=
  ⟨rfl, by decide, by decide, by decide, rfl, by decide, by decide, by decide⟩

/-- In the wrap-free setting every term computes an offset inside a buffer of
`datanumel_` elements, for every weight. -/
theorem term_in_buffer {dims : Nat} {dr nr : Nat → Nat} {e : RandomIndex} {ind : Nat → Nat}
    (hr : Ready dims dr nr e ind) (w : Int) (j : Nat) (hj : j < e.distnumel_) :
    ∃ X sw, term e ind w j = .ok (X, sw) ∧ X < e.datanumel_ := by
  have hdata := hr.built.datanumel_exact hr.fit
  have hdist := hr.built.distnumel_exact hr.fit
  obtain ⟨X, sw, h1, h2⟩ := termLoop_ok hr dims 0 j 0 w (by omega)
    (by rw [← hdist]; exact hj) (by simp [prodFrom])
  refine ⟨X, sw, ?_, by rw [hdata]; exact h2⟩
  unfold term
  rw [hr.built.dims_eq]
  exact h1

/-- C15: for an engine whose product of data ranges fits 32 bits, tables satisfying the
row invariant and a coordinate covered by the tables, every term `j` below
`distnumel_` computes, without failed assertion or fault, a flat offset below
`datanumel_`, for every weight; hence `encode` and `decode` on a buffer of
`datanumel_` elements return without fault. -/
theorem C15_offsets_in_buffer (dims : Nat) (dr nr : Nat → Nat) (e0 : RandomIndex)
    (hnew : RandomIndex.new dims dr nr = .ok e0) (hfit : prodFrom dr 0 dims < U32)
    (tabs : Nat → RITable) (sat : Nat)
    (hshape : ∀ i, i < dims → (tabs i).datarange_ = dr i ∧ (tabs i).cols_ = nr i)
    (hvalid : ∀ i, i < dims → (tabs i).Valid)
    (ind : Nat → Nat) (hc : ∀ i, i < dims → ind i < (tabs i).rows) :
    e0.datanumel_ = prodFrom dr 0 dims ∧
    (∀ (w : Int) (j : Nat), j < e0.distnumel_ →
      ∃ X sw, term { e0 with ritables_ := tabs, datasat_ := sat } ind w j = .ok (X, sw) ∧
        X < e0.datanumel_) ∧
    (∀ (data : RIBuf) (w : Int), data.numel = e0.datanumel_ →
      (encode { e0 with ritables_ := tabs, datasat_ := sat } data ind w).1 = none ∧
      ∃ r, decode { e0 with ritables_ := tabs, datasat_ := sat } data ind = .ok r) := by
  have hr := ready_with hnew hfit tabs sat hshape hvalid ind hc
  have hdata := hr.built.datanumel_exact hfit
  refine ⟨hdata, ?_, ?_⟩
  · intro w j hj
    exact term_in_buffer hr w j hj
  · intro data w hn
    constructor
    · unfold encode
      by_cases hw : w = 0
      · simp [hw]
      · simp only [hw, if_false]
        exact encodeLoop_total hr w _ 0 _ (Nat.le_of_eq (Nat.zero_add _)) hn
    · unfold decode
      rw [decodeLoop_sum hr data hn _ 0 0 (Nat.le_of_eq (Nat.zero_add _))]
      exact ⟨_, rfl⟩

/-- C15 witness: the engine `ex` (data ranges {10000, 1000}) at the coordinate (3, 7):
every offset is below 10000000. -/
theorem C15_offsets_in_buffer_witness :
    exE0.datanumel_ = prodFrom exDr 0 2 ∧
    (∀ (w : Int) (j : Nat), j < exE0.distnumel_ →
      ∃ X sw, term { exE0 with ritables_ := exTab, datasat_ := 0 } exInd w j = .ok (X, sw) ∧
        X < exE0.datanumel_) ∧
    (∀ (data : RIBuf) (w : Int), data.numel = exE0.datanumel_ →
      (encode { exE0 with ritables_ := exTab, datasat_ := 0 } data exInd w).1 = none ∧
      ∃ r, decode { exE0 with ritables_ := exTab, datasat_ := 0 } data exInd = .ok r) :=
  C15_offsets_in_buffer 2 exDr exNr exE0 rfl (by decide) exTab 0
    (by intro i hi; interval_cases i <;> exact ⟨rfl, rfl⟩)
    (by intro i hi; interval_cases i <;> constructor <;> decide)
    exInd (by intro i hi; interval_cases i <;> decide)

/-- C16 (amended): for an engine whose product of data ranges fits 32 bits, tables satisfying
the row invariant and a coordinate covered by the tables, the map from the term
index `j < distnumel_` to the flat offset is injective, for the terms of
`encode` with any weight and for those of `decode` (start value 1): the
`distnumel_` offsets of one call are pairwise distinct cells of the buffer. -/
theorem C16_distinct_cells (dims : Nat) (dr nr : Nat → Nat) (e0 : RandomIndex)
    (hnew : RandomIndex.new dims dr nr = .ok e0) (hfit : prodFrom dr 0 dims < U32)
    (tabs : Nat → RITable) (sat : Nat)
    (hshape : ∀ i, i < dims → (tabs i).datarange_ = dr i ∧ (tabs i).cols_ = nr i)
    (hvalid : ∀ i, i < dims → (tabs i).Valid)
    (ind : Nat → Nat) (hc : ∀ i, i < dims → ind i < (tabs i).rows) (w : Int) :
    (∀ j, j < e0.distnumel_ → ∀ j', j' < e0.distnumel_ →
      target { e0 with ritables_ := tabs, datasat_ := sat } ind w j
        = target { e0 with ritables_ := tabs, datasat_ := sat } ind w j' → j = j') ∧
    ((List.range e0.distnumel_).map
      (target { e0 with ritables_ := tabs, datasat_ := sat } ind w)).Nodup ∧
    ((List.range e0.distnumel_).map
      (target { e0 with ritables_ := tabs, datasat_ := sat } ind w)).length = e0.distnumel_ ∧
    (∀ j, j < e0.distnumel_ →
      target { e0 with ritables_ := tabs, datasat_ := sat } ind w j < e0.datanumel_) := by
  have hr := ready_with hnew hfit tabs sat hshape hvalid ind hc
  have hinj : ∀ j, j < e0.distnumel_ → ∀ j', j' < e0.distnumel_ →
      target { e0 with ritables_ := tabs, datasat_ := sat } ind w j
        = target { e0 with ritables_ := tabs, datasat_ := sat } ind w j' → j = j' :=
    fun j hj j' hj' h => target_inj hr w j j' hj hj' h
  refine ⟨hinj, ?_, by simp, ?_⟩
  · apply List.Nodup.map_on
    · intro x hx y hy hxy
      exact hinj x (List.mem_range.1 hx) y (List.mem_range.1 hy) hxy
    · exact List.nodup_range _
  · intro j hj
    obtain ⟨X, sw, h1, h2⟩ := term_in_buffer hr w j hj
    have : target { e0 with ritables_ := tabs, datasat_ := sat } ind w j = X := by
      unfold target; rw [h1]
    rw [this]
    exact h2

/-- C16 witness: the engine `ex` at the coordinate (3, 7) with the weight 5. -/
theorem C16_distinct_cells_witness :
    (∀ j, j < exE0.distnumel_ → ∀ j', j' < exE0.distnumel_ →
      target { exE0 with ritables_ := exTab, datasat_ := 0 } exInd 5 j
        = target { exE0 with ritables_ := exTab, datasat_ := 0 } exInd 5 j' → j = j') ∧
    ((List.range exE0.distnumel_).map
      (target { exE0 with ritables_ := exTab, datasat_ := 0 } exInd 5)).Nodup ∧
    ((List.range exE0.distnumel_).map
      (target { exE0 with ritables_ := exTab, datasat_ := 0 } exInd 5)).length
        = exE0.distnumel_ ∧
    (∀ j, j < exE0.distnumel_ →
      target { exE0 with ritables_ := exTab, datasat_ := 0 } exInd 5 j < exE0.datanumel_) :=
  C16_distinct_cells 2 exDr exNr exE0 rfl (by decide) exTab 0
    (by intro i hi; interval_cases i <;> exact ⟨rfl, rfl⟩)
    (by intro i hi; interval_cases i <;> constructor <;> decide)
    exInd (by intro i hi; interval_cases i <;> decide) 5

/-- C16 as stated fails: in the engine `cx` (data ranges {65535, 65535, 3}, product above
2^32), whose rows satisfy the row invariant, the terms 0 and 7 of a call at
(0, 0, 0) address the same cell 196605, both in `encode` and in `decode`: the 8
terms address 7 cells. -/
theorem C16_counterexample :
    RandomIndex.new 3 cxDr cxNr = .ok cxE0 ∧
    (∀ i, i < 3 → (cxTab i).datarange_ = cxDr i ∧ (cxTab i).cols_ = cxNr i ∧
      (cxTab i).Valid ∧ (0 : Nat) < (cxTab i).rows) ∧
    cxE.distnumel_ = 8 ∧
    term cxE (fun _ => 0) 5 0 = .ok (196605, 5) ∧
    term cxE (fun _ => 0) 5 7 = .ok (196605, -5) ∧
    term cxE (fun _ => 0) 1 0 = .ok (196605, 1) ∧
    term cxE (fun _ => 0) 1 7 = .ok (196605, -1) ∧
    ((List.range cxE.distnumel_).map (target cxE (fun _ => 0) 5)).dedup.length = 7 := by
  refine ⟨rfl, ?_, rfl, rfl, rfl, rfl, rfl, by decide⟩
  intro i hi
  interval_cases i
  · exact ⟨rfl, rfl, by constructor <;> decide, by decide⟩
  · exact ⟨rfl, rfl, by constructor <;> decide, by decide⟩
  · exact ⟨rfl, rfl, by constructor <;> decide, by decide⟩

/-- A zero weight stays zero through the sign changes of the loop over the
dimensions. -/
theorem termLoop_zero (e : RandomIndex) (ind : Nat → Nat) :
    ∀ (k i temp D X : Nat) (w : Int), termLoop e ind k i temp D 0 = .ok (X, w) → w = 0 := by
  intro k
  induction k with
  | zero =>
    intro i temp D X w h
    simp only [termLoop] at h
    injection h with h
    injection h with _ h2
    exact h2.symm
  | succ k ih =>
    intro i temp D X w h
    rw [termLoop] at h
    by_cases h0 : e.riunroll_ i = 0
    · rw [if_pos h0] at h; cases h
    rw [if_neg h0] at h
    have hz : (if temp / e.riunroll_ i ≥ (e.ritables_ i).numpositive then toRIData (-0) else (0 : Int))
        = 0 := by
      by_cases hc : temp / e.riunroll_ i ≥ (e.ritables_ i).numpositive
      · rw [if_pos hc]; decide
      · rw [if_neg hc]
    rw [hz] at h
    cases hit : (e.ritables_ i).item (ind i) (temp / e.riunroll_ i) with
    | error f => rw [hit] at h; cases h
    | ok r =>
      rw [hit] at h
      simp only [] at h
      exact ih _ _ _ _ _ h

theorem RIBuf.write_self (b : RIBuf) (X : Nat) : b.write X (b.cell X) = b := by
  cases b with
  | mk n c =>
    simp only [RIBuf.write]
    congr 1
    funext k
    by_cases hk : k = X
    · simp [hk]
    · simp [hk]

/-- A term of weight zero stores the cell it reads, when that cell holds a value
of `RIData`. -/
theorem encodeTerm_zero (e : RandomIndex) (ind : Nat → Nat) (st st' : RIBuf × Nat) (j : Nat)
    (hcells : ∀ q, q < st.1.numel → inRange (st.1.cell q))
    (h : encodeTerm e ind 0 st j = .ok st') : st' = st := by
  obtain ⟨X, sw, ht, hX⟩ := encodeTerm_ok e ind 0 st st' j h
  have hsw : sw = 0 := termLoop_zero e ind _ _ _ _ _ _ ht
  subst hsw
  rw [encodeTerm_eq e ind 0 st j X 0 ht hX] at h
  injection h with h
  rw [← h]
  have hin : inRange (st.1.cell X + 0) := by rw [add_zero]; exact hcells X hX
  rw [if_pos hin, clamp_inRange _ hin, add_zero, RIBuf.write_self]
  rfl

/-- The `j` loop of `encode` with weight zero leaves the state it started in,
whether it completes or stops at a fault. -/
theorem encodeLoop_zero_state (e : RandomIndex) (ind : Nat → Nat) :
    ∀ (k j : Nat) (st : RIBuf × Nat), (∀ q, q < st.1.numel → inRange (st.1.cell q)) →
      (encodeLoop e ind 0 k j st).2 = st := by
  intro k
  induction k with
  | zero => intro j st _; rfl
  | succ k ih =>
    intro j st hcells
    rw [encodeLoop]
    cases het : encodeTerm e ind 0 st j with
    | error f => rfl
    | ok st' =>
      simp only []
      have := encodeTerm_zero e ind st st' j hcells het
      subst this
      exact ih (j + 1) _ hcells

/-- C18: for every engine, coordinate and buffer whose cells hold values of `RIData`,
`encode` with weight 0 returns without fault and leaves every cell of the
buffer and the saturation counter unchanged; the term loop entered without the
early return, run with weight 0, leaves the same buffer and counter (every
store writes back the value it read and no saturation event is counted); and
when the product of the data ranges fits 32 bits, the tables satisfy the row invariant,
the coordinate is covered and the buffer has `datanumel_` elements, that loop
runs all `distnumel_` terms without fault, so the two calls agree. -/
theorem C18_zero_weight_refinement (e : RandomIndex) (data : RIBuf) (ind : Nat → Nat)
    (hcells : ∀ q, q < data.numel → inRange (data.cell q)) :
    encode e data ind 0 = (none, (data, e.datasat_)) ∧
    (encodeFull e data ind 0).2 = (encode e data ind 0).2 ∧
    (∀ (dims : Nat) (dr nr : Nat → Nat), Ready dims dr nr e ind → data.numel = e.datanumel_ →
      encodeFull e data ind 0 = encode e data ind 0) := by
  have h1 : encode e data ind 0 = (none, (data, e.datasat_)) := by
    unfold encode; rw [if_pos rfl]
  have h2 : (encodeFull e data ind 0).2 = (data, e.datasat_) :=
    encodeLoop_zero_state e ind e.distnumel_ 0 (data, e.datasat_) hcells
  refine ⟨h1, by rw [h2, h1], ?_⟩
  intro dims dr nr hr hn
  have h3 : (encodeFull e data ind 0).1 = none :=
    encodeLoop_total hr 0 e.distnumel_ 0 (data, e.datasat_) (by omega) hn
  rw [h1]
  exact Prod.ext h3 h2

theorem C18_zero_weight_refinement_witness :
    (∀ q, q < exBuf.numel → inRange (exBuf.cell q)) ∧
    encode exE exBuf exInd 0 = (none, (exBuf, exE.datasat_)) ∧
    (encodeFull exE exBuf exInd 0).2 = (encode exE exBuf exInd 0).2 ∧
    encodeFull exE exBuf exInd 0 = encode exE exBuf exInd 0 :=
  ⟨fun _ _ => (by decide : inRange (32765 : Int)),
   (C18_zero_weight_refinement exE exBuf exInd (fun _ _ => (by decide : inRange (32765 : Int)))).1,
   (C18_zero_weight_refinement exE exBuf exInd (fun _ _ => (by decide : inRange (32765 : Int)))).2.1,
   (C18_zero_weight_refinement exE exBuf exInd (fun _ _ => (by decide : inRange (32765 : Int)))).2.2
     2 exDr exNr exE_ready rfl⟩

end NRI
